import Mathlib

/-!
Shallow embedding of the Optica model evaluator and metaheuristic solver
(files src/parser.rs, src/solver/mod.rs, src/solver/rng.rs, src/config.rs).

Conventions of the embedding:
* Rust f64 values are modelled as rationals (ℚ); all arithmetic is exact.
* Rust strings are modelled as lists of characters (all inputs of interest
  are ASCII, so byte indices and char indices agree).
* Rust HashMaps are modelled as association lists looked up by first match;
  insertion replaces the existing binding, removal deletes it.
* A Rust panic (out-of-bounds index, invalid slice range) is modelled by the
  error value EvalErr.panic of the partial evaluator; the recursion of the
  string evaluator is driven by an explicit fuel argument, whose exhaustion
  is the distinct error value EvalErr.fuelOut.
-/

set_option maxHeartbeats 1000000
set_option maxRecDepth 4000

/-- Characters of a Rust string slice. -/
abbrev Str := List Char

/-- Quantifier environment: models HashMap<String, String>. -/
abbrev Env := List (Str × Str)

/-- Left trim (str::trim_start). -/
def trimL (l : Str) : Str := l.dropWhile Char.isWhitespace

/-- Both-ends trim (str::trim). -/
def trimS (l : Str) : Str := ((trimL l).reverse.dropWhile Char.isWhitespace).reverse

/-- str::split on a single separator character: keeps empty pieces, and the
empty string yields one empty piece, as in Rust. -/
def splitOnChar (sep : Char) : Str → List Str
  | [] => [[]]
  | c :: t =>
    match splitOnChar sep t with
    | [] => [[]]
    | h :: r => if c = sep then [] :: h :: r else (c :: h) :: r

/-- str::split on a character-class separator (used by penalty_cumulative). -/
def splitOnPred (p : Char → Bool) : Str → List Str
  | [] => [[]]
  | c :: t =>
    match splitOnPred p t with
    | [] => [[]]
    | h :: r => if p c then [] :: h :: r else (c :: h) :: r

/-- Boolean test that pat is a prefix of the second argument. -/
def isPre : Str → Str → Bool
  | [], _ => true
  | _ :: _, [] => false
  | p :: ps, c :: cs => p == c && isPre ps cs

/-- str::find of a substring: index of the first occurrence. -/
def findSub (pat : Str) : Str → Option Nat
  | [] => if isPre pat [] then some 0 else none
  | c :: t => if isPre pat (c :: t) then some 0 else (findSub pat (t)).map (· + 1)

/-- str::contains of a substring. -/
def containsSub (l pat : Str) : Bool := (findSub pat l).isSome

/-- str::strip_prefix. -/
def stripPre : Str → Str → Option Str
  | [], l => some l
  | _ :: _, [] => none
  | p :: ps, c :: cs => if p = c then stripPre ps cs else none

/-- str::starts_with. -/
def startsWith (pat l : Str) : Bool := (stripPre pat l).isSome

/-- str::ends_with for a single character. -/
def endsWithCh (c : Char) (l : Str) : Bool :=
  match l.getLast? with
  | some d => d == c
  | none => false

/-- str::trim_end_matches for a single character. -/
def dropTrailing (c : Char) (l : Str) : Str := (l.reverse.dropWhile (· == c)).reverse

/-- Vec::join with a separator string. -/
def joinWith (sep : Str) : List Str → Str
  | [] => []
  | [a] => a
  | a :: t => a ++ sep ++ joinWith sep t

/-- Lookup in an association list keyed by strings (models HashMap::get). -/
def alookup {α : Type} : List (Str × α) → Str → Option α
  | [], _ => none
  | (k, v) :: t, key => if k = key then some v else alookup t key

/-- HashMap::insert: replace any existing binding. -/
def envInsert (e : Env) (k v : Str) : Env := (k, v) :: e.filter (fun p => !(p.1 == k))

/-- HashMap::remove. -/
def envRemove (e : Env) (k : Str) : Env := e.filter (fun p => !(p.1 == k))

/-- Value of a digit string (none if empty or a non-digit occurs). -/
def digitsValAux : Str → Nat → Option Nat
  | [], acc => some acc
  | c :: t, acc => if c.isDigit then digitsValAux t (acc * 10 + (c.toNat - 48)) else none

/-- Value of a nonempty digit string. -/
def digitsVal : Str → Option Nat
  | [] => none
  | l => digitsValAux l 0

/-- Unsigned decimal parse; models str::parse::<f64> on the decimal fragment
(digits with at most one dot; exponents, inf and NaN are not modelled, the
program only feeds decimal numerals to this path). -/
def parseDec (s : Str) : Option ℚ :=
  match splitOnChar '.' s with
  | [a] => (digitsVal a).map (fun n => (n : ℚ))
  | [a, b] =>
    if a.isEmpty && b.isEmpty then none
    else do
      let ip ← if a.isEmpty then some 0 else digitsVal a
      let fp ← if b.isEmpty then some 0 else digitsVal b
      some ((ip : ℚ) + (fp : ℚ) / (10 : ℚ) ^ b.length)
  | _ => none

/-- Signed decimal parse (str::parse::<f64> on decimal numerals). -/
def parseF64 (s : Str) : Option ℚ :=
  match s with
  | '-' :: t => (parseDec t).map Neg.neg
  | '+' :: t => parseDec t
  | _ => parseDec s

/-- str::parse::<i32>: signed digits with the 32-bit range check. -/
def parseI32 (s : Str) : Option Int :=
  match s with
  | '-' :: t => (digitsVal t).bind (fun n => if (n : Int) ≤ 2 ^ 31 then some (-(n : Int)) else none)
  | '+' :: t => (digitsVal t).bind (fun n => if (n : Int) ≤ 2 ^ 31 - 1 then some (n : Int) else none)
  | _ => (digitsVal s).bind (fun n => if (n : Int) ≤ 2 ^ 31 - 1 then some (n : Int) else none)

/-- Rust i32/Int to_string, as a char list. -/
def intToStr (i : Int) : Str := (toString i).toList

/-- Inclusive integer range a..=b mapped to decimal strings. -/
def rangeIncl (a b : Int) : List Str :=
  if b < a then [] else (List.range ((b - a).toNat + 1)).map (fun k => intToStr (a + k))

/-- Modulus of 64-bit arithmetic. -/
def M64 : Nat := 2 ^ 64

/-- u64::rotate_left. -/
def rotl64 (x k : Nat) : Nat := ((x * 2 ^ k) % M64) ||| (x / 2 ^ (64 - k))

/-- XorShift128+-family generator state (src/solver/rng.rs). -/
structure Rng where
  s0 : Nat
  s1 : Nat
deriving Repr, DecidableEq

/-- Rng::new. -/
def Rng.mk0 (seed : Nat) : Rng :=
  { s0 := seed % M64, s1 := (seed * 0x9E3779B97F4A7C15) % M64 }

/-- Rng::next_u64 (xoroshiro128+ step). -/
def Rng.next (r : Rng) : Nat × Rng :=
  let s0 := r.s0
  let res := (r.s0 + r.s1) % M64
  let s1 := r.s1 ^^^ s0
  (res, { s0 := rotl64 s0 24 ^^^ s1 ^^^ ((s1 * 2 ^ 16) % M64), s1 := rotl64 s1 37 })

/-- Rng::f64: (next_u64 >> 11) · 2^-53, a rational in [0, 1). -/
def Rng.f64 (r : Rng) : ℚ × Rng :=
  let (u, r1) := r.next
  (((u / 2 ^ 11 : Nat) : ℚ) / (2 ^ 53 : ℚ), r1)

/-- Rng::usize: wide-multiply reduction to [0, max). -/
def Rng.usizeR (r : Rng) (max : Nat) : Nat × Rng :=
  let (u, r1) := r.next
  ((u * max) / M64, r1)

/-- Rng::fill_f64: n draws in order. -/
def Rng.fillF64 (r : Rng) : Nat → List ℚ × Rng
  | 0 => ([], r)
  | n + 1 =>
    let (v, r1) := r.f64
    let (vs, r2) := Rng.fillF64 r1 n
    (v :: vs, r2)

/-- Tokens of the arithmetic evaluator (parser.rs, eval_arith). -/
inductive Tok where
  | num (v : ℚ)
  | sym (s : Str)
  | op (c : Char)
  | lpar
  | rpar
  | comma
deriving Repr, DecidableEq

/-- Character classes of the tokenizer. -/
def isNumCh (c : Char) : Bool := c.isDigit || c == '.'

/-- Characters that may continue a symbol token. -/
def isSymCh (c : Char) : Bool := c.isAlphanum || c == '_' || c == '[' || c == ']' || c == '.'

/-- Arithmetic operator characters. -/
def isOpCh (c : Char) : Bool := c == '+' || c == '-' || c == '*' || c == '/'

/-- Tokenizer of eval_arith with structural fuel: every step consumes at
least the leading character, so fuel equal to the string length is exact. -/
def tokenizeF : Nat → Str → List Tok
  | 0, _ => []
  | _, [] => []
  | fuel + 1, c :: t =>
    if c.isWhitespace then tokenizeF fuel t
    else if isNumCh c then
      match parseDec (c :: t.takeWhile isNumCh) with
      | some v => Tok.num v :: tokenizeF fuel (t.dropWhile isNumCh)
      | none => tokenizeF fuel (t.dropWhile isNumCh)
    else if c == '(' then Tok.lpar :: tokenizeF fuel t
    else if c == ')' then Tok.rpar :: tokenizeF fuel t
    else if c == ',' then Tok.comma :: tokenizeF fuel t
    else if isOpCh c then Tok.op c :: tokenizeF fuel t
    else Tok.sym (c :: t.takeWhile isSymCh) :: tokenizeF fuel (t.dropWhile isSymCh)

/-- Tokenizer of eval_arith: numbers (digits and dots; unparsable runs are
dropped), parentheses, commas, the four operators, and maximal symbol runs. -/
def tokenize (l : Str) : List Tok := tokenizeF l.length l

/-- Operator precedence (eval_arith::prec). -/
def prec (c : Char) : Nat :=
  if c == '+' || c == '-' then 1 else if c == '*' || c == '/' then 2 else 0

/-- Pop operators of precedence at least p from the stack (returns the popped
tokens in pop order and the remaining stack). -/
def popOps (p : Nat) : List Tok → List Tok × List Tok
  | Tok.op c :: st =>
    if p ≤ prec c then
      let (o, s) := popOps p st
      (Tok.op c :: o, s)
    else ([], Tok.op c :: st)
  | st => ([], st)

/-- Pop up to and including the first left parenthesis. -/
def popToLpar : List Tok → List Tok × List Tok
  | [] => ([], [])
  | Tok.lpar :: st => ([], st)
  | t :: st =>
    let (o, s) := popToLpar st
    (t :: o, s)

/-- Pop up to but excluding the first left parenthesis (comma handling). -/
def popToLparKeep : List Tok → List Tok × List Tok
  | [] => ([], [])
  | Tok.lpar :: st => ([], Tok.lpar :: st)
  | t :: st =>
    let (o, s) := popToLparKeep st
    (t :: o, s)

/-- Shunting-yard conversion to RPN, including the unary-minus rule (a zero is
pushed when a minus appears in operand position) and the source's final drain
of the whole stack, left parentheses included. -/
def syAux : List Tok → List Tok → List Tok → Bool → List Tok
  | [], out, st, _ => out ++ st
  | t :: ts, out, st, prevOp =>
    match t with
    | Tok.num v => syAux ts (out ++ [Tok.num v]) st false
    | Tok.sym s => syAux ts (out ++ [Tok.sym s]) st false
    | Tok.op c =>
      let out1 := if c == '-' && prevOp then out ++ [Tok.num 0] else out
      let (popped, st1) := popOps (prec c) st
      syAux ts (out1 ++ popped) (Tok.op c :: st1) true
    | Tok.lpar => syAux ts out (Tok.lpar :: st) true
    | Tok.rpar =>
      let (popped, st1) := popToLpar st
      syAux ts (out ++ popped) st1 false
    | Tok.comma =>
      let (popped, st1) := popToLparKeep st
      syAux ts (out ++ popped) st1 true

/-- RPN token sequence of an expression string. -/
def toRPN (toks : List Tok) : List Tok := syAux toks [] [] true

/-- Constraint comparison operator (parser.rs). -/
inductive ConstraintOp where
  | le
  | ge
  | eq
deriving Repr, DecidableEq

/-- A parsed constraint: name, lhs expression, operator, numeric rhs. -/
structure Constraint where
  name : Str
  expr : Str
  op : ConstraintOp
  rhs : ℚ
deriving Repr, DecidableEq

/-- A named objective of the multi-objective block. -/
structure Objective where
  name : Str
  expr : Str
  maximize : Bool
deriving Repr, DecidableEq

/-- Pareto handling method. -/
inductive ParetoMethod where
  | single
  | weightedSum (ws : List (Str × ℚ))
  | epsilon (primary : Str) (eps : List (Str × ConstraintOp × ℚ))
deriving Repr, DecidableEq

/-- The parsed model (parser.rs, struct Model). -/
structure Model where
  dim : Nat
  lb : List ℚ
  ub : List ℚ
  var_names : List Str
  var_map : List (Str × Nat)
  maximize : Bool
  params : List (Str × List (Str × ℚ))
  sets : List (Str × List Str)
  objective_expr : Option Str
  constraints : List Constraint
  objectives : List Objective
  pareto : ParetoMethod
  cp_globals : List Str
deriving Repr, DecidableEq

/-- Result of evaluating under finite fuel: a value, a Rust panic, or fuel
exhaustion (the latter never occurs at the wrapper's fuel, which exceeds the
recursion depth because every nested evaluation is on a strictly shorter
string). -/
inductive Res (α : Type) where
  | ok (v : α)
  | panic
  | fuelOut
deriving Repr, DecidableEq

/-- Sequencing of partial evaluation results. -/
def Res.bind {α β : Type} (r : Res α) (f : α → Res β) : Res β :=
  match r with
  | .ok v => f v
  | .panic => .panic
  | .fuelOut => .fuelOut

/-- Equality tolerance 1e-9 of the evaluator and of check_constraints. -/
def EPS9 : ℚ := 1 / 10 ^ 9

/-- Near-zero divisor guard 1e-12 of eval_arith. -/
def EPS12 : ℚ := 1 / 10 ^ 12

/-- The '\x7b' character. -/
def lbraceCh : Char := Char.ofNat 123

/-- Rust slice expr[a..b]: panics unless a ≤ b ≤ len. -/
def sliceP (l : Str) (a b : Nat) : Res Str :=
  if a ≤ b ∧ b ≤ l.length then Res.ok ((l.drop a).take (b - a)) else Res.panic

/-- Index tokens of a bracketed symbol: trimmed, then resolved through env
with unresolved tokens taken literally. -/
def getIdxTokens (env : Env) (idxPart : Str) : List Str :=
  (splitOnChar ',' idxPart).map (fun t =>
    let t1 := trimS t
    (alookup env t1).getD t1)

/-- eval_symbol (parser.rs): max/min applications, bracketed names resolved
as decision variable then parameter entry, plain names resolved as scalar
parameter then decision variable then numeric env binding, default 0. -/
def evalSymbolF (ev : Str → Env → Res ℚ) (m : Model) (x : List ℚ) (env : Env) (sym : Str) :
    Res ℚ :=
  let mm : Option (Res ℚ) :=
    if startsWith ("max(".toList) sym && endsWithCh ')' sym then
      match splitOnChar ',' ((sym.drop 4).dropLast) with
      | [p1, p2] =>
        some (Res.bind (ev (trimS p1) env) (fun a =>
          Res.bind (ev (trimS p2) env) (fun b => Res.ok (max a b))))
      | _ => none
    else none
  match mm with
  | some r => r
  | none =>
    let mn : Option (Res ℚ) :=
      if startsWith ("min(".toList) sym && endsWithCh ')' sym then
        match splitOnChar ',' ((sym.drop 4).dropLast) with
        | [p1, p2] =>
          some (Res.bind (ev (trimS p1) env) (fun a =>
            Res.bind (ev (trimS p2) env) (fun b => Res.ok (min a b))))
        | _ => none
      else none
    match mn with
    | some r => r
    | none =>
      match List.findIdx? (fun c => c == '[') sym with
      | some b =>
        let name := sym.take b
        let idxPart := dropTrailing ']' (sym.drop (b + 1))
        let idxKey := joinWith (",".toList) (getIdxTokens env idxPart)
        let varKey := name ++ "[".toList ++ idxKey ++ "]".toList
        match alookup m.var_map varKey with
        | some i =>
          match x.get? i with
          | some v => Res.ok v
          | none => Res.panic
        | none =>
          match alookup m.params name with
          | some pm =>
            match alookup pm idxKey with
            | some v => Res.ok v
            | none => Res.ok 0
          | none => Res.ok 0
      | none =>
        match (alookup m.params sym).bind (fun pm => alookup pm ("_".toList)) with
        | some v => Res.ok v
        | none =>
          match alookup m.var_map sym with
          | some i =>
            match x.get? i with
            | some v => Res.ok v
            | none => Res.panic
          | none =>
            match (alookup env sym).bind parseF64 with
            | some v => Res.ok v
            | none => Res.ok 0

/-- Binary arithmetic with the near-zero division guard. -/
def applyOp (c : Char) (a b : ℚ) : ℚ :=
  if c = '+' then a + b
  else if c = '-' then a - b
  else if c = '*' then a * b
  else if c = '/' then (if |b| < EPS12 then 0 else a / b)
  else 0

/-- RPN evaluation (eval_arith): operator on a short stack aborts the whole
expression with value 0; stray parentheses are ignored; the final answer is
the top of the stack, 0 when empty. -/
def evalRPNF (ev : Str → Env → Res ℚ) (m : Model) (x : List ℚ) (env : Env) :
    List Tok → List ℚ → Res ℚ
  | [], st => Res.ok (st.headD 0)
  | Tok.num v :: rest, st => evalRPNF ev m x env rest (v :: st)
  | Tok.sym s :: rest, st =>
    Res.bind (evalSymbolF ev m x env s) (fun v => evalRPNF ev m x env rest (v :: st))
  | Tok.op c :: rest, st =>
    match st with
    | b :: a :: st1 => evalRPNF ev m x env rest (applyOp c a b :: st1)
    | _ => Res.ok 0
  | _ :: rest, st => evalRPNF ev m x env rest st

/-- eval_arith: tokenize, convert to RPN, evaluate. -/
def evalArithF (ev : Str → Env → Res ℚ) (m : Model) (x : List ℚ) (env : Env) (s : Str) :
    Res ℚ :=
  evalRPNF ev m x env (toRPN (tokenize s)) []

/-- Comparison operators in the search order of the source. -/
def cmpOps : List Str :=
  ["<=".toList, ">=".toList, "==".toList, "!=".toList, "<".toList, ">".toList]

/-- First comparison operator found in the string (with its position). -/
def findOp : List Str → Str → Option (Str × Nat)
  | [], _ => none
  | o :: os, s =>
    match findSub o s with
    | some p => some (o, p)
    | none => findOp os s

/-- Comparison semantics; equality uses the 1e-9 absolute tolerance. -/
def applyCmp (o : Str) (a b : ℚ) : Bool :=
  if o = "<".toList then decide (a < b)
  else if o = "<=".toList then decide (a ≤ b)
  else if o = ">".toList then decide (a > b)
  else if o = ">=".toList then decide (a ≥ b)
  else if o = "==".toList then decide (|a - b| < EPS9)
  else if o = "!=".toList then decide (|a - b| ≥ EPS9)
  else false

/-- eval_condition: first comparison operator splits the string; with no
operator the expression's value is compared with 0. -/
def evalCondF (ev : Str → Env → Res ℚ) (s : Str) (env : Env) : Res Bool :=
  match findOp cmpOps s with
  | some (o, p) =>
    Res.bind (ev (trimS (s.take p)) env) (fun a =>
      Res.bind (ev (trimS (s.drop (p + o.length))) env) (fun b =>
        Res.ok (applyCmp o a b)))
  | none => Res.bind (ev s env) (fun v => Res.ok (decide (v ≠ 0)))

/-- eval_comparison: a top-level comparison yields 1.0 or 0.0. -/
def evalCmpF (ev : Str → Env → Res ℚ) (s : Str) (env : Env) : Option (Res ℚ) :=
  match findOp cmpOps s with
  | some (o, p) =>
    some (Res.bind (ev (trimS (s.take p)) env) (fun a =>
      Res.bind (ev (trimS (s.drop (p + o.length))) env) (fun b =>
        Res.ok (if applyCmp o a b then 1 else 0))))
  | none => none

/-- eval_if: positions of " then " and " else " are found in the lowercased
string; the three pieces are sliced from the original string (the middle
slice panics when " else " occurs before " then "), then the condition picks
the branch. -/
def evalIfF (ev : Str → Env → Res ℚ) (s : Str) (env : Env) : Option (Res ℚ) :=
  let lower := s.map Char.toLower
  match findSub (" then ".toList) lower, findSub (" else ".toList) lower with
  | some t, some e =>
    let condS := s.take t
    some (Res.bind (sliceP s (t + 6) e) (fun thenS =>
      let elseS := s.drop (e + 6)
      Res.bind (evalCondF ev (trimS condS) env) (fun c =>
        if c then ev (trimS thenS) env else ev (trimS elseS) env)))
  | _, _ => none

/-- Domain of one sum quantifier: a named set, an inclusive integer range, or
the literal name as a singleton. -/
def sumDomain (m : Model) (setName : Str) : List Str :=
  match alookup m.sets setName with
  | some set => set
  | none =>
    match findSub ("..".toList) setName with
    | some dd =>
      let a := (parseI32 (trimS (setName.take dd))).getD 0
      let b := (parseI32 (trimS (setName.drop (dd + 2)))).getD 0
      rangeIncl a b
    | none => [setName]

/-- Quantifier loops of a sum header. -/
def sumLoops (m : Model) (header : Str) : List (Str × List Str) :=
  (splitOnChar ',' header).foldr (fun part acc =>
    match findSub (" in ".toList) part with
    | some pos => (trimS (part.take pos), sumDomain m (trimS (part.drop (pos + 4)))) :: acc
    | none => acc) []

mutual
/-- The dfs of evaluate_sum: iterate the cartesian product of the quantifier
domains, accumulating body values, threading the single mutable env (each
level removes its own binding after its loop). -/
def sumDfs (ev : Str → Env → Res ℚ) (body : Str) :
    List (Str × List Str) → Env → ℚ → Res (ℚ × Env)
  | [], env, acc => Res.bind (ev body env) (fun v => Res.ok (acc + v, env))
  | (var, vals) :: rest, env, acc =>
    Res.bind (sumIter ev body var vals rest env acc) (fun p =>
      Res.ok (p.1, envRemove p.2 var))
termination_by loops _ _ => (loops.length, 0, 0)

/-- Iteration over one quantifier's domain values. -/
def sumIter (ev : Str → Env → Res ℚ) (body var : Str) :
    List Str → List (Str × List Str) → Env → ℚ → Res (ℚ × Env)
  | [], _, env, acc => Res.ok (acc, env)
  | v :: vs, rest, env, acc =>
    Res.bind (sumDfs ev body rest (envInsert env var v) acc) (fun p =>
      sumIter ev body var vs rest p.2 p.1)
termination_by vals rest _ _ => (rest.length, 1, vals.length)
end

/-- evaluate_sum: extract header and body (parenthesis form first, then brace
form; missing closer returns 0; a closer before the opener panics), then run
the dfs starting from a clone of env with accumulator 0. -/
def evalSumF (ev : Str → Env → Res ℚ) (m : Model) (s : Str) (env : Env) : Res ℚ :=
  let run : Str → Str → Res ℚ := fun header body =>
    Res.bind (sumDfs ev body (sumLoops m header) env 0) (fun p => Res.ok p.1)
  match List.findIdx? (fun c => c == '(') s with
  | some st =>
    match List.findIdx? (fun c => c == ')') s with
    | some en =>
      Res.bind (sliceP s (st + 1) en) (fun header => run header (trimS (s.drop (en + 1))))
    | none => Res.ok 0
  | none =>
    match List.findIdx? (fun c => c == lbraceCh) s with
    | some st =>
      match List.findIdx? (fun c => c == Char.ofNat 125) s with
      | some en =>
        Res.bind (sliceP s (st + 1) en) (fun header => run header (trimS (s.drop (en + 1))))
      | none => Res.ok 0
    | none => Res.ok 0

/-- evaluate_expr dispatch: trim, then if-then-else, then sum, then top-level
comparison, then arithmetic. -/
def evalExprCore (ev : Str → Env → Res ℚ) (m : Model) (x : List ℚ) (s0 : Str) (env : Env) :
    Res ℚ :=
  let s := trimS s0
  match evalIfF ev s env with
  | some r => r
  | none =>
    if startsWith ("sum(".toList) s || startsWith ("sum\x7b".toList) s then
      evalSumF ev m s env
    else
      match evalCmpF ev s env with
      | some r => r
      | none => evalArithF ev m x env s

/-- The fuel-indexed evaluator; each nested evaluate_expr call spends one
unit of fuel and is applied to a strictly shorter string. -/
def evalExprE (m : Model) (x : List ℚ) : Nat → Str → Env → Res ℚ
  | 0, _, _ => Res.fuelOut
  | fuel + 1, s, env => evalExprCore (fun s1 e1 => evalExprE m x fuel s1 e1) m x s env

/-- Fuel that strictly dominates the recursion depth of a given string. -/
def fuelOf (s : Str) : Nat := s.length + 1

/-- Total value of evaluate_expr, the denotation used by every caller in the
solver; a panic of the source (recorded separately by the partial evaluator)
is defaulted to 0 here. -/
def Model.evaluate_expr (m : Model) (s : Str) (x : List ℚ) (env : Env) : ℚ :=
  match evalExprE m x (fuelOf s) s env with
  | Res.ok v => v
  | _ => 0

/-- evaluate_objective: the objective expression if set, else the first
multi-objective expression, else the Sphere function. -/
def Model.evaluate_objective (m : Model) (x : List ℚ) : ℚ :=
  match m.objective_expr with
  | some e => m.evaluate_expr e x []
  | none =>
    match m.objectives with
    | o :: _ => m.evaluate_expr o.expr x []
    | [] => (x.map (fun v => v * v)).sum

/-- Per-constraint violation: max(0, v-rhs), max(0, rhs-v) or |v-rhs|. -/
def constraintViolation (m : Model) (x : List ℚ) (c : Constraint) : ℚ :=
  let lhs := m.evaluate_expr c.expr x []
  match c.op with
  | ConstraintOp.le => max (lhs - c.rhs) 0
  | ConstraintOp.ge => max (c.rhs - lhs) 0
  | ConstraintOp.eq => |lhs - c.rhs|

/-- check_constraints: a violation is added to the total (and kills
feasibility) only when it exceeds 1e-9. -/
def Model.check_constraints (m : Model) (x : List ℚ) : Bool × ℚ :=
  m.constraints.foldl (fun acc c =>
    let v := constraintViolation m x c
    if v > EPS9 then (false, acc.2 + v) else acc) (true, 0)

/-- Penalty coefficient: the built-in default 1e6 (the OPTICA_PENALTY
environment override is process I/O and is modelled by its default). -/
def penaltyCoeff : ℚ := 10 ^ 6

/-- Indexing of the candidate vector; the source indexes x directly and
panics out of bounds, the penalty helpers below use the in-bounds value. -/
def xval (x : List ℚ) (i : Nat) : ℚ := x.getD i 0

/-- get_var_val: value of a named decision variable, if any. -/
def get_var_val (m : Model) (x : List ℚ) (key : Str) : Option ℚ :=
  (alookup m.var_map key).map (fun i => xval x i)

/-- Intervals collected by penalty_no_overlap: each var_map entry whose name
starts with the start prefix contributes, when the matching end (or
start+duration) variable exists and end > start. -/
def collectIntervals (m : Model) (x : List ℚ) (preS : Str) (preE : Option Str)
    (preD : Option Str) : List (ℚ × ℚ) :=
  m.var_map.foldr (fun nv acc =>
    match stripPre preS nv.1 with
    | some suffix =>
      let start := xval x nv.2
      let endv : Option ℚ :=
        match preE with
        | some ep => get_var_val m x (ep ++ suffix)
        | none =>
          match preD with
          | some dp => (get_var_val m x (dp ++ suffix)).map (fun d => start + d)
          | none => none
      match endv with
      | some e => if e > start then (start, e) :: acc else acc
      | none => acc
    | none => acc) []

/-- Inner accumulation of pairwise overlap against one fixed interval. -/
def overlapFold (s1 e1 : ℚ) (rest : List (ℚ × ℚ)) : ℚ :=
  rest.foldl (fun acc p =>
    let ov := max (min e1 p.2 - max s1 p.1) 0
    if ov > 0 then acc + ov else acc) 0

/-- Pairwise total overlap of the collected intervals (the i < j double loop
of penalty_no_overlap). -/
def pairOverlap : List (ℚ × ℚ) → ℚ
  | [] => 0
  | (s1, e1) :: rest => overlapFold s1 e1 rest + pairOverlap rest

/-- penalty_no_overlap (solver/mod.rs). -/
def penalty_no_overlap (m : Model) (x : List ℚ) (preS : Str) (preE : Option Str)
    (preD : Option Str) : ℚ :=
  pairOverlap (collectIntervals m x preS preE preD)

/-- Remove adjacent duplicates (Vec::dedup). -/
def dedupAdj : List ℚ → List ℚ
  | [] => []
  | [a] => [a]
  | a :: b :: t => if a = b then dedupAdj (b :: t) else a :: dedupAdj (b :: t)

/-- penalty_cumulative: demand and capacity are the first two numerals of the
annotation line; intervals are start/duration pairs with positive duration;
the load is swept over the sorted, deduplicated endpoint grid. -/
def penalty_cumulative (m : Model) (x : List ℚ) (line : Str) (preS preD : Str) : ℚ :=
  let nums : List ℚ :=
    (splitOnPred (fun c => !(c.isDigit || c == '.' || c == '-')) line).foldr
      (fun s acc =>
        if s.isEmpty then acc
        else match parseF64 s with
          | some v => v :: acc
          | none => acc) []
  let demand := nums.headD 1
  let capacity := (nums.drop 1).headD 1
  let intervals : List (ℚ × ℚ) :=
    m.var_map.foldr (fun nv acc =>
      match stripPre preS nv.1 with
      | some suffix =>
        let start := xval x nv.2
        match get_var_val m x (preD ++ suffix) with
        | some d => if d > 0 then (start, start + d) :: acc else acc
        | none => acc
      | none => acc) []
  if intervals.isEmpty then 0
  else
    let pts := dedupAdj ((intervals.foldr (fun p acc => p.1 :: p.2 :: acc) []).mergeSort (· ≤ ·))
    (pts.zip (pts.drop 1)).foldl (fun vio w =>
      let mid := (w.1 + w.2) / 2
      let load := intervals.foldl (fun l p => if mid ≥ p.1 ∧ mid < p.2 then l + demand else l) 0
      if load > capacity then vio + (load - capacity) * (w.2 - w.1) else vio) 0

/-- compute_cp_penalty: keyword scan of the stored annotation lines. -/
def compute_cp_penalty (m : Model) (x : List ℚ) : ℚ :=
  m.cp_globals.foldl (fun pen g =>
    if containsSub g ("no_overlap".toList) then
      pen + penalty_no_overlap m x ("start[".toList) (some ("end[".toList)) none
    else if containsSub g ("disjunctive".toList) then
      pen + penalty_no_overlap m x ("start[".toList) none (some ("duration[".toList))
    else if containsSub g ("cumulative".toList) then
      pen + penalty_cumulative m x g ("start[".toList) ("duration[".toList)
    else pen) 0

/-- Signed value of a named objective (weighted-sum and epsilon branches). -/
def signedObjVal (m : Model) (x : List ℚ) (o : Objective) : ℚ :=
  let v := m.evaluate_expr o.expr x []
  if o.maximize then -v else v

/-- compute_fitness (solver/mod.rs): multi-objective branches by pareto
method (none of them add the CP penalty), otherwise the single-objective
composition with algebraic violation and CP penalty. -/
def compute_fitness (m : Model) (x : List ℚ) : ℚ :=
  match m.objectives with
  | [] =>
    let obj := m.evaluate_objective x
    let obj1 := if m.maximize then -obj else obj
    obj1 + ((m.check_constraints x).2 + compute_cp_penalty m x) * penaltyCoeff
  | o0 :: _ =>
    match m.pareto with
    | ParetoMethod.weightedSum ws =>
      if ws.isEmpty then
        signedObjVal m x o0 + (m.check_constraints x).2 * penaltyCoeff
      else
        let total := ws.foldl (fun acc nw =>
          match m.objectives.find? (fun o => o.name == nw.1) with
          | some o => acc + nw.2 * signedObjVal m x o
          | none => acc) 0
        total + (m.check_constraints x).2 * penaltyCoeff
    | ParetoMethod.epsilon primary eps =>
      let vPrimary :=
        match m.objectives.find? (fun o => o.name == primary) with
        | some o => signedObjVal m x o
        | none => 0
      let vioEps := eps.foldl (fun acc nor =>
        match m.objectives.find? (fun o => o.name == nor.1) with
        | some o =>
          let v := signedObjVal m x o
          let viol :=
            match nor.2.1 with
            | ConstraintOp.le => max (v - nor.2.2) 0
            | ConstraintOp.ge => max (nor.2.2 - v) 0
            | ConstraintOp.eq => |v - nor.2.2|
          acc + viol
        | none => acc) 0
      vPrimary + ((m.check_constraints x).2 + vioEps) * penaltyCoeff
    | ParetoMethod.single =>
      signedObjVal m x o0 + (m.check_constraints x).2 * penaltyCoeff

/-- Solver constants (src/config.rs). -/
def POP_SIZE : Nat := 50

/-- Number of PSO particles. -/
def N_PARTICLES : Nat := 50

/-- DE differential weight. -/
def DE_F : ℚ := 8 / 10

/-- DE crossover rate. -/
def DE_CR : ℚ := 9 / 10

/-- Early-stop tolerance. -/
def TOLERANCE : ℚ := 1 / 10 ^ 10

/-- PSO cognitive coefficient. -/
def PSO_C1 : ℚ := 2

/-- PSO social coefficient. -/
def PSO_C2 : ℚ := 2

/-- PSO initial inertia. -/
def PSO_W_INIT : ℚ := 9 / 10

/-- PSO inertia floor. -/
def PSO_W_MIN : ℚ := 4 / 10

/-- PSO inertia decay factor. -/
def PSO_W_DECAY : ℚ := 995 / 1000

/-- Dimension threshold of the parallel DE path. -/
def PARALLEL_MIN_DIM : Nat := 50

/-- Iteration threshold of the parallel DE path. -/
def PARALLEL_MIN_ITER : Nat := 200

/-- f64::clamp written as its two comparisons (the source relies on
lo ≤ hi wherever it clamps). -/
def rustClamp (v lo hi : ℚ) : ℚ := if v < lo then lo else if v > hi then hi else v

/-- f64::MAX as an exact rational. -/
def F64_MAX : ℚ := (2 ^ 53 - 1) * 2 ^ 971

/-- Population::initialize / Swarm::initialize row sampling: row i is
lb + r·(ub − lb) componentwise with fresh uniform draws per row. The
row-major flat buffer of the source is modelled as a list of rows. -/
def initRows (rng : Rng) (lb ub : List ℚ) (dim : Nat) : Nat → List (List ℚ) × Rng
  | 0 => ([], rng)
  | n + 1 =>
    let (r, rng1) := rng.fillF64 dim
    let row := (List.range dim).map (fun j =>
      lb.getD j 0 + r.getD j 0 * (ub.getD j 0 - lb.getD j 0))
    let (rows, rng2) := initRows rng1 lb ub dim n
    (row :: rows, rng2)

/-- Index scan of min_by over (index, fitness) pairs: first minimum wins. -/
def argminAux : List ℚ → Nat → Nat → ℚ → Nat
  | [], _, bi, _ => bi
  | v :: t, i, bi, bv => if v < bv then argminAux t (i + 1) i v else argminAux t (i + 1) bi bv

/-- Population::find_best index (ties resolved to the first index). -/
def argminFirst : List ℚ → Nat
  | [] => 0
  | v :: t => argminAux t 1 0 v

/-- The cyclic-bump rejection loop of select_parents, with explicit fuel;
the source's while loop terminates within size steps whenever a non-bad
residue exists, which holds for every population size the solver uses. -/
def bumpWhile (bad : Nat → Bool) (size : Nat) : Nat → Nat → Nat
  | r, 0 => r
  | r, f + 1 => if bad r then bumpWhile bad size ((r + 1) % size) f else r

/-- Population::select_parents: two donor indices distinct from each other
and from i, by uniform draw plus cyclic bump. -/
def select_parents (size : Nat) (rng : Rng) (i : Nat) : (Nat × Nat) × Rng :=
  let (r1a, rng1) := rng.usizeR size
  let r1 := bumpWhile (fun r => r == i) size r1a size
  let (r2a, rng2) := rng1.usizeR size
  let r2 := bumpWhile (fun r => r == i || r == r1) size r2a size
  ((r1, r2), rng2)

/-- de_crossover: mandatory dimension j_rand and CR-gated dimensions take the
clamped current-to-best mutant, the rest copy the parent. -/
def de_crossover (rows : List (List ℚ)) (i r1 r2 jr : Nat) (best rnd lb ub : List ℚ)
    (dim : Nat) : List ℚ :=
  (List.range dim).map (fun j =>
    let mutant := rustClamp
      (best.getD j 0 + DE_F * ((rows.getD r1 []).getD j 0 - (rows.getD r2 []).getD j 0))
      (lb.getD j 0) (ub.getD j 0)
    if j = jr then mutant
    else if rnd.getD j 0 < DE_CR then mutant
    else (rows.getD i []).getD j 0)

/-- State of a serial DE run. The obs field is ghost instrumentation: it
records every fitness value the run has computed (initial population plus
every trial), is never read by the algorithm, and exists only so that the
incumbent-minimality invariant can be stated. done records the early-return
iteration count. -/
structure DEState where
  rows : List (List ℚ)
  fit : List ℚ
  best : List ℚ
  bestFit : ℚ
  rng : Rng
  obs : List ℚ
  done : Option Nat

/-- DE initialisation: sample the population, evaluate it, and take the
first-best row as incumbent (whose fitness is recomputed, as in the source). -/
def deInit (F : List ℚ → ℚ) (lb ub : List ℚ) (dim size seed : Nat) : DEState :=
  let (rows, rng1) := initRows (Rng.mk0 seed) lb ub dim size
  let fit := rows.map F
  let best := rows.getD (argminFirst fit) []
  { rows := rows, fit := fit, best := best, bestFit := F best, rng := rng1,
    obs := fit, done := none }

/-- One individual of a DE generation (the body of the inner loop, frozen
after an early return). -/
def deInner (F : List ℚ → ℚ) (lb ub : List ℚ) (dim size iter : Nat) (st : DEState)
    (i : Nat) : DEState :=
  match st.done with
  | some _ => st
  | none =>
    let ((r1, r2), rngA) := select_parents size st.rng i
    let (jr, rngB) := rngA.usizeR dim
    let (rnd, rngC) := rngB.fillF64 dim
    let trial := de_crossover st.rows i r1 r2 jr st.best rnd lb ub dim
    let tf := F trial
    let obs1 := st.obs ++ [tf]
    if tf ≤ st.fit.getD i 0 then
      let rows1 := st.rows.set i trial
      let fit1 := st.fit.set i tf
      if tf < st.bestFit then
        { rows := rows1, fit := fit1, best := trial, bestFit := tf, rng := rngC,
          obs := obs1, done := if tf < TOLERANCE then some (iter + 1) else none }
      else
        { rows := rows1, fit := fit1, best := st.best, bestFit := st.bestFit,
          rng := rngC, obs := obs1, done := none }
    else
      { st with rng := rngC, obs := obs1 }

/-- One DE generation. -/
def deGen (F : List ℚ → ℚ) (lb ub : List ℚ) (dim size iter : Nat) (st : DEState) : DEState :=
  (List.range size).foldl (fun s i => deInner F lb ub dim size iter s i) st

/-- The DE state after gens generations. -/
def deRun (F : List ℚ → ℚ) (lb ub : List ℚ) (dim size seed gens : Nat) : DEState :=
  (List.range gens).foldl (fun st it => deGen F lb ub dim size it st)
    (deInit F lb ub dim size seed)

/-- de_single (solver/mod.rs): seed 12345, population POP_SIZE. -/
def de_single (m : Model) (max_iter : Nat) : List ℚ × ℚ × Nat :=
  let final := deRun (fun v => compute_fitness m v) m.lb m.ub m.dim POP_SIZE 12345 max_iter
  (final.best, final.bestFit, final.done.getD max_iter)

/-- The serial DE state after g generations (prefix of de_single's run). -/
def deIterate (m : Model) (g : Nat) : DEState :=
  deRun (fun v => compute_fitness m v) m.lb m.ub m.dim POP_SIZE 12345 g

/-- Island subpopulation size: max(10, POP_SIZE / threads), as written. -/
def islandSubPop (threads : Nat) : Nat := Nat.max (POP_SIZE / threads) 10

/-- One island of de_parallel: thread t runs serial DE on its own
subpopulation with the thread-derived seed 12345 + t·7919 and reports its
incumbent pair. -/
def islandRun (m : Model) (max_iter threads t : Nat) : List ℚ × ℚ :=
  let final := deRun (fun v => compute_fitness m v) m.lb m.ub m.dim (islandSubPop threads)
    (12345 + t * 7919) max_iter
  (final.best, final.bestFit)

/-- Iterator::min_by with a strict-less fold: the first minimum is kept. -/
def minByFirst {α : Type} : List (α × ℚ) → Option (α × ℚ)
  | [] => none
  | a :: t => some (t.foldl (fun acc b => if b.2 < acc.2 then b else acc) a)

/-- de_parallel: join the islands in spawn order and keep the lowest
fitness. The source unwraps the join and would panic for threads = 0, which
the dispatch never produces; that case is given the vacuous value here. -/
def de_parallel (m : Model) (max_iter threads : Nat) : List ℚ × ℚ × Nat :=
  match minByFirst ((List.range threads).map (fun t => islandRun m max_iter threads t)) with
  | some p => (p.1, p.2, max_iter)
  | none => ([], 0, max_iter)

/-- solve_cp: the cp-sat feature is disabled in this build, so the shim of
solver/mod.rs (lines 20-23) always returns none. -/
def solve_cp (_m : Model) : Option (List ℚ × ℚ × Nat) := none

/-- de entry point: CP delegation (inert in this build), then the
serial/parallel dispatch on threads, dimension and iteration budget. -/
def de (m : Model) (max_iter threads : Nat) : List ℚ × ℚ × Nat :=
  match (if m.cp_globals.isEmpty then none else solve_cp m) with
  | some res => res
  | none =>
    if threads ≤ 1 ∨ m.dim < PARALLEL_MIN_DIM ∨ max_iter < PARALLEL_MIN_ITER then
      de_single m max_iter
    else
      de_parallel m max_iter threads

/-- State of a PSO run; done records the early-return iteration count. -/
structure PSOState where
  pos : List (List ℚ)
  vel : List (List ℚ)
  pbest : List (List ℚ)
  pbestFit : List ℚ
  gbest : List ℚ
  gbestFit : ℚ
  w : ℚ
  rng : Rng
  done : Option Nat

/-- Swarm::find_global_best: scan of the recomputed pbest fitness values,
starting from index 0 and f64::MAX, strict improvement only. -/
def gbestFold (F : List ℚ → ℚ) (rows : List (List ℚ)) (n : Nat) : Nat × ℚ :=
  (List.range n).foldl (fun acc i =>
    let fit := F (rows.getD i [])
    if fit < acc.2 then (i, fit) else acc) (0, F64_MAX)

/-- PSO initialisation: positions sampled like DE rows, pbest a copy of the
positions, velocities zero, inertia PSO_W_INIT, seed 67890. -/
def psoInit (F : List ℚ → ℚ) (lb ub : List ℚ) (dim : Nat) : PSOState :=
  let (rows, rng1) := initRows (Rng.mk0 67890) lb ub dim N_PARTICLES
  let pbestFit := rows.map F
  let gbest := rows.getD (gbestFold F rows N_PARTICLES).1 []
  { pos := rows, vel := (List.range N_PARTICLES).map (fun _ => (List.range dim).map (fun _ => 0)),
    pbest := rows, pbestFit := pbestFit, gbest := gbest, gbestFit := F gbest,
    w := PSO_W_INIT, rng := rng1, done := none }

/-- One dimension of pso_update_velocity_position: inertia-weighted velocity
with cognitive and social pulls, clamped to ±v_max; the position moves by
the velocity and is clipped to the violated bound with the velocity
component zeroed. Returns (new position, new velocity). -/
def psoStep1 (row vrow pbrow gbest vmax lb ub : List ℚ) (w : ℚ) (r1 r2 : List ℚ)
    (j : Nat) : ℚ × ℚ :=
  let v1 := rustClamp
    (w * vrow.getD j 0 + PSO_C1 * r1.getD j 0 * (pbrow.getD j 0 - row.getD j 0)
      + PSO_C2 * r2.getD j 0 * (gbest.getD j 0 - row.getD j 0))
    (-(vmax.getD j 0)) (vmax.getD j 0)
  let pv1 := if row.getD j 0 + v1 < lb.getD j 0
    then ((lb.getD j 0 : ℚ), (0 : ℚ)) else (row.getD j 0 + v1, v1)
  if pv1.1 > ub.getD j 0 then ((ub.getD j 0 : ℚ), (0 : ℚ)) else pv1

/-- pso_update_velocity_position for one particle: the per-dimension step
applied across the row. Returns (new position row, new velocity row). -/
def pso_update (row vrow pbrow gbest vmax lb ub : List ℚ) (w : ℚ) (r1 r2 : List ℚ)
    (dim : Nat) : List ℚ × List ℚ :=
  let pairs := (List.range dim).map (psoStep1 row vrow pbrow gbest vmax lb ub w r1 r2)
  (pairs.map Prod.fst, pairs.map Prod.snd)

/-- One particle of a PSO generation. -/
def psoInner (F : List ℚ → ℚ) (lb ub vmax : List ℚ) (dim iter : Nat) (st : PSOState)
    (i : Nat) : PSOState :=
  match st.done with
  | some _ => st
  | none =>
    let (r1, rngA) := st.rng.fillF64 dim
    let (r2, rngB) := rngA.fillF64 dim
    let (newPos, newVel) := pso_update (st.pos.getD i []) (st.vel.getD i [])
      (st.pbest.getD i []) st.gbest vmax lb ub st.w r1 r2 dim
    let pos1 := st.pos.set i newPos
    let vel1 := st.vel.set i newVel
    let fit := F newPos
    if fit < st.pbestFit.getD i 0 then
      let pbest1 := st.pbest.set i newPos
      let pf1 := st.pbestFit.set i fit
      if fit < st.gbestFit then
        { pos := pos1, vel := vel1, pbest := pbest1, pbestFit := pf1, gbest := newPos,
          gbestFit := fit, w := st.w, rng := rngB,
          done := if fit < TOLERANCE then some (iter + 1) else none }
      else
        { pos := pos1, vel := vel1, pbest := pbest1, pbestFit := pf1, gbest := st.gbest,
          gbestFit := st.gbestFit, w := st.w, rng := rngB, done := none }
    else
      { st with pos := pos1, vel := vel1, rng := rngB }

/-- One PSO generation followed by the inertia decay. -/
def psoGen (F : List ℚ → ℚ) (lb ub vmax : List ℚ) (dim iter : Nat) (st : PSOState) :
    PSOState :=
  let st1 := (List.range N_PARTICLES).foldl (fun s i => psoInner F lb ub vmax dim iter s i) st
  match st1.done with
  | some _ => st1
  | none => { st1 with w := max (st1.w * PSO_W_DECAY) PSO_W_MIN }

/-- The PSO state after g generations. -/
def psoIterate (m : Model) (g : Nat) : PSOState :=
  let vmax := (List.range m.dim).map (fun j => (m.ub.getD j 0 - m.lb.getD j 0) * (1 / 2))
  (List.range g).foldl (fun st it => psoGen (fun v => compute_fitness m v) m.lb m.ub vmax m.dim it st)
    (psoInit (fun v => compute_fitness m v) m.lb m.ub m.dim)

/-- pso entry point (solver/mod.rs). -/
def pso (m : Model) (max_iter : Nat) : List ℚ × ℚ × Nat :=
  match (if m.cp_globals.isEmpty then none else solve_cp m) with
  | some res => res
  | none =>
    let final := psoIterate m max_iter
    (final.gbest, final.gbestFit, final.done.getD max_iter)

/-- hybrid: DE for half the budget, then PSO on bounds shrunk to ±10% of the
range around the DE incumbent, returning the better phase. -/
def hybrid (m : Model) (max_iter threads : Nat) : List ℚ × ℚ × Nat :=
  let p1 := de m (max_iter / 2) threads
  let x1 := p1.1
  let lb2 := (List.range m.dim).map (fun j =>
    max (x1.getD j 0 - (m.ub.getD j 0 - m.lb.getD j 0) * (1 / 10)) (m.lb.getD j 0))
  let ub2 := (List.range m.dim).map (fun j =>
    min (x1.getD j 0 + (m.ub.getD j 0 - m.lb.getD j 0) * (1 / 10)) (m.ub.getD j 0))
  let p2 := pso { m with lb := lb2, ub := ub2 } (max_iter / 2)
  if p2.2.1 < p1.2.1 then (p2.1, p2.2.1, max_iter) else (p1.1, p1.2.1, max_iter)

/-- The empty model (Model::new). -/
def mEmpty : Model :=
  { dim := 0, lb := [], ub := [], var_names := [], var_map := [], maximize := false,
    params := [], sets := [], objective_expr := none, constraints := [], objectives := [],
    pareto := ParetoMethod.single, cp_globals := [] }

/-- A model with one named objective, pareto Single, and model-level
maximize set while the objective itself is a minimisation. -/
def mC1 : Model :=
  { mEmpty with
    dim := 1
    lb := [0]
    ub := [10]
    var_names := ["x".toList]
    var_map := [("x".toList, 0)]
    maximize := true
    objectives := [{ name := "f".toList, expr := "x".toList, maximize := false }] }

/-- A model in which the plain name a is simultaneously a decision variable
and a scalar parameter (value 5). -/
def mC2 : Model :=
  { mEmpty with
    dim := 1
    lb := [0]
    ub := [10]
    var_names := ["a".toList]
    var_map := [("a".toList, 0)]
    params := [("a".toList, [("_".toList, 5)])] }

/-- A model with a single constraint whose violation is 5·10⁻¹⁰: positive
but below the 1e-9 feasibility cutoff. -/
def mC3 : Model :=
  { mEmpty with
    dim := 1
    lb := [0]
    ub := [10]
    var_names := ["x".toList]
    var_map := [("x".toList, 0)]
    constraints := [{ name := "c".toList, expr := "3".toList, op := ConstraintOp.le,
                      rhs := 3 - 1 / 2000000000 }] }

/-- A one-dimensional unit-box model with the default Sphere objective. -/
def mW : Model :=
  { mEmpty with
    dim := 1
    lb := [0]
    ub := [1]
    var_names := ["x".toList]
    var_map := [("x".toList, 0)] }

/-- Every decision-variable index is a valid index of the candidate. -/
def wellIndexed (m : Model) (x : List ℚ) : Prop := ∀ p ∈ m.var_map, p.2 < x.length

/-- Symbol resolution as the amended specification words it: a bracketed
name resolves its index tokens through env (unresolved tokens literal),
joins them with commas, and is looked up first as a decision variable, then
as a parameter entry, else 0 — the env numeric parse is not consulted; a
plain name is looked up first as a scalar parameter (key "_"), then as a
decision variable, then as a numeric parse of an env binding, else 0. -/
def resolveSymbolSpec (m : Model) (x : List ℚ) (env : Env) (sym : Str) : ℚ :=
  match List.findIdx? (fun c => c == '[') sym with
  | some b =>
    let name := sym.take b
    let idxKey := joinWith (",".toList) (getIdxTokens env (dropTrailing ']' (sym.drop (b + 1))))
    match alookup m.var_map (name ++ "[".toList ++ idxKey ++ "]".toList) with
    | some i => xval x i
    | none => ((alookup m.params name).bind (fun pm => alookup pm idxKey)).getD 0
  | none =>
    match (alookup m.params sym).bind (fun pm => alookup pm ("_".toList)) with
    | some v => v
    | none =>
      match alookup m.var_map sym with
      | some i => xval x i
      | none => ((alookup env sym).bind parseF64).getD 0

/-- Sum of exactly those per-constraint violations exceeding 1e-9. -/
def specViolSum (m : Model) (x : List ℚ) : ℚ :=
  (m.constraints.map (fun c =>
    let v := constraintViolation m x c
    if v > EPS9 then v else 0)).sum

/-- The specification's pairwise overlap sum over i < j. -/
def pairSumSpec : List (ℚ × ℚ) → ℚ
  | [] => 0
  | a :: t => (t.map (fun b => max 0 (min a.2 b.2 - max a.1 b.1))).sum + pairSumSpec t

/-- No two collected intervals overlap strictly. -/
def noStrictOverlap (l : List (ℚ × ℚ)) : Prop :=
  l.Pairwise (fun p q => min p.2 q.2 ≤ max p.1 q.1)

/-- A candidate of the right dimension within the box bounds. -/
def inBounds (m : Model) (v : List ℚ) : Prop :=
  v.length = m.dim ∧ ∀ j < m.dim, m.lb.getD j 0 ≤ v.getD j 0 ∧ v.getD j 0 ≤ m.ub.getD j 0

/-- The DE loop invariant bundle: stored fitness matches the rows, the
incumbent fitness is the minimum of every observed fitness value, and it is
a lower bound of the stored fitness values. -/
def deInv (F : List ℚ → ℚ) (size : Nat) (st : DEState) : Prop :=
  st.rows.length = size ∧ st.fit.length = size ∧
  (∀ i < size, st.fit.getD i 0 = F (st.rows.getD i [])) ∧
  st.bestFit ∈ st.obs ∧ (∀ v ∈ st.obs, st.bestFit ≤ v) ∧
  (∀ i < size, st.bestFit ≤ st.fit.getD i 0)

/-- The DE bounds invariant: population shape plus box membership of every
row and of the incumbent. -/
def deBnd (m : Model) (size : Nat) (st : DEState) : Prop :=
  st.rows.length = size ∧ (∀ row ∈ st.rows, inBounds m row) ∧ inBounds m st.best

/-- The PSO bounds invariant. -/
def psoBnd (m : Model) (st : PSOState) : Prop :=
  st.pos.length = N_PARTICLES ∧ st.pbest.length = N_PARTICLES ∧
  (∀ row ∈ st.pos, inBounds m row) ∧ (∀ row ∈ st.pbest, inBounds m row) ∧
  inBounds m st.gbest

/-- Per-constraint violations are nonnegative. -/
theorem constraintViolation_nonneg (m : Model) (x : List ℚ) (c : Constraint) :
    0 ≤ constraintViolation m x c := by
  unfold constraintViolation
  cases c.op
  · exact le_max_right _ _
  · exact le_max_right _ _
  · exact abs_nonneg _

/-- The check_constraints fold: the running total accumulates exactly the
violations exceeding 1e-9, and feasibility is the conjunction of the
per-constraint cutoff tests. -/
theorem check_fold_spec (m : Model) (x : List ℚ) (cs : List Constraint) (b : Bool) (t : ℚ) :
    (cs.foldl (fun acc c =>
        let v := constraintViolation m x c
        if v > EPS9 then (false, acc.2 + v) else acc) (b, t))
      = (b && cs.all (fun c => decide (constraintViolation m x c ≤ EPS9)),
         t + (cs.map (fun c =>
           let v := constraintViolation m x c
           if v > EPS9 then v else 0)).sum) := by
  induction cs generalizing b t with
  | nil => simp
  | cons c cs ih =>
    by_cases h : constraintViolation m x c > EPS9
    · simp only [List.foldl_cons, List.all_cons, List.map_cons, List.sum_cons, h, if_pos h]
      rw [ih]
      have hd : decide (constraintViolation m x c ≤ EPS9) = false :=
        decide_eq_false (not_le.mpr h)
      rw [hd]
      simp [add_assoc]
    · simp only [List.foldl_cons, List.all_cons, List.map_cons, List.sum_cons, if_neg h]
      rw [ih]
      have hd : decide (constraintViolation m x c ≤ EPS9) = true :=
        decide_eq_true (not_lt.mp h)
      rw [hd]
      simp

/-- check_constraints in closed form. -/
theorem check_constraints_eq (m : Model) (x : List ℚ) :
    m.check_constraints x
      = (m.constraints.all (fun c => decide (constraintViolation m x c ≤ EPS9)),
         specViolSum m x) := by
  unfold Model.check_constraints specViolSum
  rw [check_fold_spec]
  simp

/-- Terms of the violation sum are nonnegative. -/
theorem specViolSum_nonneg (m : Model) (x : List ℚ) : 0 ≤ specViolSum m x := by
  unfold specViolSum
  apply List.sum_nonneg
  intro a ha
  simp only [List.mem_map] at ha
  obtain ⟨c, _, hc⟩ := ha
  subst hc
  by_cases h : constraintViolation m x c > EPS9
  · simpa [h] using constraintViolation_nonneg m x c
  · simp [h]

/-- If every violation is within the cutoff, the sum is zero. -/
theorem specViolSum_eq_zero (m : Model) (x : List ℚ)
    (h : ∀ c ∈ m.constraints, constraintViolation m x c ≤ EPS9) : specViolSum m x = 0 := by
  unfold specViolSum
  apply List.sum_eq_zero
  intro a ha
  simp only [List.mem_map] at ha
  obtain ⟨c, hc, hc2⟩ := ha
  subst hc2
  simp [not_lt.mpr (h c hc)]

/-- If some violation exceeds the cutoff, the sum exceeds the cutoff. -/
theorem specViolSum_gt (m : Model) (x : List ℚ) (c : Constraint) (hc : c ∈ m.constraints)
    (h : EPS9 < constraintViolation m x c) : EPS9 < specViolSum m x := by
  unfold specViolSum
  have hmem : (if constraintViolation m x c > EPS9 then constraintViolation m x c else 0)
      ∈ m.constraints.map (fun c =>
        let v := constraintViolation m x c
        if v > EPS9 then v else 0) := List.mem_map_of_mem _ hc
  have hle := List.single_le_sum (l := m.constraints.map (fun c =>
    let v := constraintViolation m x c
    if v > EPS9 then v else 0)) ?_ _ hmem
  · calc EPS9 < constraintViolation m x c := h
      _ = (if constraintViolation m x c > EPS9 then constraintViolation m x c else 0) := by
          simp [h]
      _ ≤ _ := hle
  · intro y hy
    simp only [List.mem_map] at hy
    obtain ⟨d, _, hd⟩ := hy
    subst hd
    by_cases hgt : constraintViolation m x d > EPS9
    · simpa [hgt] using constraintViolation_nonneg m x d
    · simp [hgt]

/-- C10: check_constraints never adds a violation that is at most 1e-9 to
the total (the total is the sum of exactly the violations exceeding 1e-9);
feasibility holds iff every individual violation is at most 1e-9; and a
feasible result carries total violation exactly 0. -/
theorem check_constraints_feasibility (m : Model) (x : List ℚ) :
    (m.check_constraints x).2 = specViolSum m x ∧
    ((m.check_constraints x).1 = true ↔
      ∀ c ∈ m.constraints, constraintViolation m x c ≤ EPS9) ∧
    ((m.check_constraints x).1 = true → (m.check_constraints x).2 = 0) := by
  have he := check_constraints_eq m x
  refine ⟨by rw [he], ?_, ?_⟩
  · rw [he]
    simp only [List.all_eq_true, decide_eq_true_eq]
  · intro hf
    rw [he]
    rw [he] at hf
    simp only [List.all_eq_true, decide_eq_true_eq] at hf
    exact specViolSum_eq_zero m x hf

/-- C3 counterexample: with one ≤-constraint of violation 5·10⁻¹⁰ the
returned total violation is 0, while the unweighted sum over all constraints
of the per-constraint violations is 5·10⁻¹⁰; the two differ, so the total is
not that sum. -/
theorem check_constraints_sum_cex :
    (mC3.check_constraints [0]).2
      ≠ ((mC3.constraints.map (fun c => constraintViolation mC3 [0] c)).sum : ℚ) := by
  with_unfolding_all decide

/-- C3 (amended): the returned total is the sum of exactly those
per-constraint violations that exceed 1e-9 (violations at most 1e-9
contribute nothing), the total is nonnegative, and feasibility holds iff the
total is at most 1e-9. -/
theorem check_constraints_amended (m : Model) (x : List ℚ) :
    (m.check_constraints x).2 = specViolSum m x ∧
    0 ≤ (m.check_constraints x).2 ∧
    ((m.check_constraints x).1 = true ↔ (m.check_constraints x).2 ≤ EPS9) := by
  have he := check_constraints_eq m x
  refine ⟨by rw [he], by rw [he]; exact specViolSum_nonneg m x, ?_⟩
  rw [he]
  simp only [List.all_eq_true, decide_eq_true_eq]
  constructor
  · intro hall
    rw [specViolSum_eq_zero m x hall]
    unfold EPS9
    positivity
  · intro hsum
    by_contra hnot
    push_neg at hnot
    obtain ⟨c, hc, hgt⟩ := hnot
    exact absurd hsum (not_le.mpr (specViolSum_gt m x c hc hgt))

/-- C1 counterexample: a model with a non-empty objectives list and pareto
Single, whose compute_fitness is not the claimed composition of
evaluate_objective (signed by model.maximize) with the algebraic-plus-CP
penalty term. -/
theorem compute_fitness_single_claim_cex :
    compute_fitness mC1 [2]
      ≠ (if mC1.maximize then -(mC1.evaluate_objective [2]) else mC1.evaluate_objective [2])
          + ((mC1.check_constraints [2]).2 + compute_cp_penalty mC1 [2]) * penaltyCoeff := by
  with_unfolding_all decide

/-- C1 (amended): with an empty objectives list, compute_fitness is the
signed evaluate_objective plus (algebraic violation + CP penalty)·P; with a
non-empty objectives list and pareto Single it is instead the first
objective's value signed by that objective's own maximize flag plus only the
algebraic violation times P (no CP penalty). -/
theorem compute_fitness_single_amended (m : Model) (x : List ℚ)
    (h : m.objectives = [] ∨ m.pareto = ParetoMethod.single) :
    compute_fitness m x =
      match m.objectives with
      | [] =>
        (if m.maximize then -(m.evaluate_objective x) else m.evaluate_objective x)
          + ((m.check_constraints x).2 + compute_cp_penalty m x) * penaltyCoeff
      | o :: _ =>
        (if o.maximize then -(m.evaluate_expr o.expr x []) else m.evaluate_expr o.expr x [])
          + (m.check_constraints x).2 * penaltyCoeff := by
  rcases h with h | h
  · simp [compute_fitness, h]
  · cases hobj : m.objectives with
    | nil => simp [compute_fitness, hobj]
    | cons o t => simp [compute_fitness, hobj, h, signedObjVal]

/-- Witness for the amended C1 theorem at the concrete model mC1. -/
theorem compute_fitness_single_amended_witness :
    (mC1.objectives = [] ∨ mC1.pareto = ParetoMethod.single) ∧
    compute_fitness mC1 [2] =
      match mC1.objectives with
      | [] =>
        (if mC1.maximize then -(mC1.evaluate_objective [2]) else mC1.evaluate_objective [2])
          + ((mC1.check_constraints [2]).2 + compute_cp_penalty mC1 [2]) * penaltyCoeff
      | o :: _ =>
        (if o.maximize then -(mC1.evaluate_expr o.expr [2] []) else mC1.evaluate_expr o.expr [2] [])
          + (mC1.check_constraints [2]).2 * penaltyCoeff :=
  ⟨Or.inr rfl, compute_fitness_single_amended mC1 [2] (Or.inr rfl)⟩

/-- C7: on the expression "a else b then c" (where " else " precedes
" then "), the evaluator panics — the slice expr[t_pos+6..e_pos] of eval_if
has its start beyond its end — even though the index precondition holds
vacuously; evaluation does not return a value. -/
theorem evaluate_expr_panics :
    wellIndexed mEmpty [] ∧
    evalExprE mEmpty [] (fuelOf ("a else b then c".toList)) ("a else b then c".toList) []
      = Res.panic := by
  constructor
  · intro p hp
    simp [mEmpty] at hp
  · with_unfolding_all decide

/-- C2 counterexample: for the plain name a, simultaneously a decision
variable (index 0) and a scalar parameter (value 5), the evaluator returns
the parameter value 5, not the decision variable value x[var_index[a]] = 7. -/
theorem eval_symbol_order_cex :
    mC2.evaluate_expr ("a".toList) [7] [] = 5 ∧ (5 : ℚ) ≠ xval [7] 0 := by
  with_unfolding_all decide

/-- A successful strip_prefix decomposes the string. -/
theorem stripPre_eq (p l r : Str) (h : stripPre p l = some r) : l = p ++ r := by
  induction p generalizing l with
  | nil =>
    unfold stripPre at h
    cases h
    rfl
  | cons c cs ih =>
    cases l with
    | nil => simp [stripPre] at h
    | cons d ds =>
      unfold stripPre at h
      by_cases hcd : c = d
      · subst hcd
        simp only [if_pos rfl] at h
        simp [ih ds h]
      · simp [hcd] at h

/-- A list element below the length is returned by the optional getter. -/
theorem get?_of_lt (x : List ℚ) (i : Nat) (h : i < x.length) : x.get? i = some (xval x i) := by
  induction x generalizing i with
  | nil => simp at h
  | cons a t ih =>
    cases i with
    | zero => simp [xval]
    | succ j =>
      simp only [List.get?_cons_succ]
      have := ih j (by simpa using h)
      simpa [xval] using this

/-- The getElem? form of the previous lemma. -/
theorem getElem?_of_lt (x : List ℚ) (i : Nat) (h : i < x.length) : x[i]? = some (xval x i) := by
  rw [← List.get?_eq_getElem?]
  exact get?_of_lt x i h

/-- A successful association lookup is a member of the list. -/
theorem alookup_mem {α : Type} (l : List (Str × α)) (k : Str) (v : α)
    (h : alookup l k = some v) : (k, v) ∈ l := by
  induction l with
  | nil => simp [alookup] at h
  | cons p t ih =>
    unfold alookup at h
    by_cases hk : p.1 = k
    · rcases p with ⟨pk, pv⟩
      simp only at hk
      subst hk
      simp only [if_pos rfl] at h
      cases h
      exact List.mem_cons_self _ _
    · rcases p with ⟨pk, pv⟩
      simp only at hk
      simp only [if_neg hk] at h
      exact List.mem_cons_of_mem _ (ih h)

/-- A parenthesis-free symbol does not start with "max(". -/
theorem not_startsWith_maxp (sym : Str) (hpar : '(' ∉ sym) :
    startsWith ("max(".toList) sym = false := by
  unfold startsWith
  cases hs : stripPre ("max(".toList) sym with
  | none => rfl
  | some r =>
    exfalso
    apply hpar
    rw [stripPre_eq _ _ _ hs]
    exact List.mem_append_left _ (by decide)

/-- A parenthesis-free symbol does not start with "min(". -/
theorem not_startsWith_minp (sym : Str) (hpar : '(' ∉ sym) :
    startsWith ("min(".toList) sym = false := by
  unfold startsWith
  cases hs : stripPre ("min(".toList) sym with
  | none => rfl
  | some r =>
    exfalso
    apply hpar
    rw [stripPre_eq _ _ _ hs]
    exact List.mem_append_left _ (by decide)

/-- C2 (amended): for every parenthesis-free symbol (a plain name or a
bracketed name[i1,...,ik]) and every candidate whose decision-variable
indices are in range, eval_symbol returns the resolution the code implements:
bracketed names resolve decision variable first, then parameter entry, else
0 (no env numeric parse); plain names resolve scalar parameter (key "_")
first, then decision variable, then numeric env parse, else 0 — so a plain
name that is both a decision variable and a scalar parameter takes the
parameter value. -/
theorem eval_symbol_resolution_amended (ev : Str → Env → Res ℚ) (m : Model) (x : List ℚ)
    (env : Env) (sym : Str) (hpar : '(' ∉ sym) (hix : wellIndexed m x) :
    evalSymbolF ev m x env sym = Res.ok (resolveSymbolSpec m x env sym) := by
  unfold evalSymbolF resolveSymbolSpec
  rw [not_startsWith_maxp sym hpar, not_startsWith_minp sym hpar]
  cases hfi : List.findIdx? (fun c => c == '[') sym with
  | some b =>
    dsimp only
    cases hv : alookup m.var_map
        (sym.take b ++ "[".toList
          ++ joinWith (",".toList) (getIdxTokens env (dropTrailing ']' (sym.drop (b + 1))))
          ++ "]".toList) with
    | some i =>
      have hlt : i < x.length := hix _ (alookup_mem _ _ _ hv)
      simp [getElem?_of_lt x i hlt]
    | none =>
      cases hp : alookup m.params (sym.take b) with
      | some pm =>
        cases hpk : alookup pm
            (joinWith [','] (getIdxTokens env (dropTrailing ']' (List.drop (b + 1) sym)))) with
        | some v => simp [hp, hpk]
        | none => simp [hp, hpk]
      | none => simp [hp]
  | none =>
    dsimp only
    cases hp : alookup m.params sym with
    | some pm =>
      cases hps : alookup pm ['_'] with
      | some v => simp [hp, hps]
      | none =>
        cases hv : alookup m.var_map sym with
        | some i =>
          have hlt : i < x.length := hix _ (alookup_mem _ _ _ hv)
          simp [hp, hps, hv, getElem?_of_lt x i hlt]
        | none =>
          cases he : (alookup env sym).bind parseF64 with
          | some v => simp [hp, hps, hv, he]
          | none => simp [hp, hps, hv, he]
    | none =>
      cases hv : alookup m.var_map sym with
      | some i =>
        have hlt : i < x.length := hix _ (alookup_mem _ _ _ hv)
        simp [hp, hv, getElem?_of_lt x i hlt]
      | none =>
        cases he : (alookup env sym).bind parseF64 with
        | some v => simp [hp, hv, he]
        | none => simp [hp, hv, he]

/-- Witness for the amended C2 theorem: the bracketed name s[1] resolves to
the decision variable value. -/
theorem eval_symbol_resolution_amended_witness :
    ('(' ∉ ("a".toList : Str)) ∧ wellIndexed mC2 [7] ∧
    evalSymbolF (fun _ _ => Res.panic) mC2 [7] [] ("a".toList)
      = Res.ok (resolveSymbolSpec mC2 [7] [] ("a".toList)) := by
  have hw : wellIndexed mC2 [7] := by
    intro p hp
    simp only [mC2, mEmpty] at hp
    rcases List.mem_singleton.mp hp with rfl
    decide
  exact ⟨by decide, hw,
    eval_symbol_resolution_amended (fun _ _ => Res.panic) mC2 [7] [] ("a".toList)
      (by decide) hw⟩

/-- The guarded accumulation of overlaps equals the sum of the clamped
overlap lengths. -/
theorem overlapFold_eq (s1 e1 : ℚ) (rest : List (ℚ × ℚ)) :
    overlapFold s1 e1 rest = (rest.map (fun b => max 0 (min e1 b.2 - max s1 b.1))).sum := by
  suffices h : ∀ acc : ℚ, rest.foldl (fun acc p =>
      let ov := max (min e1 p.2 - max s1 p.1) 0
      if ov > 0 then acc + ov else acc) acc
      = acc + (rest.map (fun b => max 0 (min e1 b.2 - max s1 b.1))).sum by
    simpa [overlapFold] using h 0
  induction rest with
  | nil => intro acc; simp
  | cons p t ih =>
    intro acc
    simp only [List.foldl_cons, List.map_cons, List.sum_cons]
    by_cases hov : max (min e1 p.2 - max s1 p.1) 0 > 0
    · rw [if_pos hov, ih, max_comm]
      ring
    · rw [if_neg hov, ih]
      have hz : max (min e1 p.2 - max s1 p.1) 0 = 0 :=
        le_antisymm (not_lt.mp hov) (le_max_right _ _)
      rw [max_comm, hz]
      ring

/-- The i < j double loop of penalty_no_overlap computes the
specification's pairwise overlap sum. -/
theorem pairOverlap_eq_spec (l : List (ℚ × ℚ)) : pairOverlap l = pairSumSpec l := by
  induction l with
  | nil => rfl
  | cons a t ih =>
    rcases a with ⟨s1, e1⟩
    simp only [pairOverlap, pairSumSpec, ih, overlapFold_eq]

/-- The pairwise overlap sum is nonnegative. -/
theorem pairSumSpec_nonneg (l : List (ℚ × ℚ)) : 0 ≤ pairSumSpec l := by
  induction l with
  | nil => simp [pairSumSpec]
  | cons a t ih =>
    have h1 : 0 ≤ (t.map (fun b => max 0 (min a.2 b.2 - max a.1 b.1))).sum := by
      apply List.sum_nonneg
      intro y hy
      simp only [List.mem_map] at hy
      obtain ⟨b, _, hb⟩ := hy
      subst hb
      exact le_max_left _ _
    simp only [pairSumSpec]
    linarith

/-- The pairwise overlap sum vanishes exactly when no two collected
intervals overlap strictly. -/
theorem pairSumSpec_eq_zero_iff (l : List (ℚ × ℚ)) :
    pairSumSpec l = 0 ↔ noStrictOverlap l := by
  induction l with
  | nil => simp [pairSumSpec, noStrictOverlap]
  | cons a t ih =>
    have hterms : ∀ y ∈ t.map (fun b => max 0 (min a.2 b.2 - max a.1 b.1)), 0 ≤ y := by
      intro y hy
      simp only [List.mem_map] at hy
      obtain ⟨b, _, hb⟩ := hy
      subst hb
      exact le_max_left _ _
    have hsum : 0 ≤ (t.map (fun b => max 0 (min a.2 b.2 - max a.1 b.1))).sum :=
      List.sum_nonneg hterms
    have hrest := pairSumSpec_nonneg t
    constructor
    · intro h
      have h1 : (t.map (fun b => max 0 (min a.2 b.2 - max a.1 b.1))).sum = 0 := by
        simp only [pairSumSpec] at h
        linarith
      have h2 : pairSumSpec t = 0 := by
        simp only [pairSumSpec] at h
        linarith
      rw [noStrictOverlap, List.pairwise_cons]
      refine ⟨?_, (ih.mp h2)⟩
      intro b hb
      have hmem : max 0 (min a.2 b.2 - max a.1 b.1)
          ∈ t.map (fun b => max 0 (min a.2 b.2 - max a.1 b.1)) := List.mem_map_of_mem _ hb
      have hle := List.single_le_sum hterms _ hmem
      rw [h1] at hle
      have hz : max 0 (min a.2 b.2 - max a.1 b.1) = 0 :=
        le_antisymm hle (le_max_left _ _)
      have := max_eq_left_iff.mp hz
      linarith
    · intro h
      rw [noStrictOverlap, List.pairwise_cons] at h
      obtain ⟨hhead, htail⟩ := h
      have h1 : (t.map (fun b => max 0 (min a.2 b.2 - max a.1 b.1))).sum = 0 := by
        apply List.sum_eq_zero
        intro y hy
        simp only [List.mem_map] at hy
        obtain ⟨b, hb, hbe⟩ := hy
        subst hbe
        exact max_eq_left (by linarith [hhead b hb])
      simp only [pairSumSpec, h1, ih.mpr htail]
      ring

/-- C8: the no_overlap CP penalty is the sum over unordered pairs of
collected intervals of max(0, min(e_i,e_j) - max(s_i,s_j)), where intervals
come from start[...]/end[...] variable pairs with a shared bracket suffix
and only end > start pairs are kept; the penalty is 0 iff no two collected
intervals overlap strictly. -/
theorem no_overlap_penalty_spec (m : Model) (x : List ℚ) :
    penalty_no_overlap m x ("start[".toList) (some ("end[".toList)) none
      = pairSumSpec (collectIntervals m x ("start[".toList) (some ("end[".toList)) none) ∧
    (penalty_no_overlap m x ("start[".toList) (some ("end[".toList)) none = 0
      ↔ noStrictOverlap (collectIntervals m x ("start[".toList) (some ("end[".toList)) none)) := by
  constructor
  · exact pairOverlap_eq_spec _
  · rw [penalty_no_overlap, pairOverlap_eq_spec]
    exact pairSumSpec_eq_zero_iff _

/-- The strict-less fold of min_by keeps the first minimum: the start-or-list
decomposes around the result, every element is at least the result, and every
element strictly before the result is strictly greater. -/
theorem foldl_minBy_spec {α : Type} (a : α × ℚ) (t : List (α × ℚ)) :
    ∃ l1 l2, a :: t = l1 ++ (t.foldl (fun acc b => if b.2 < acc.2 then b else acc) a) :: l2
      ∧ (∀ q ∈ a :: t, (t.foldl (fun acc b => if b.2 < acc.2 then b else acc) a).2 ≤ q.2)
      ∧ (∀ q ∈ l1, (t.foldl (fun acc b => if b.2 < acc.2 then b else acc) a).2 < q.2) := by
  induction t generalizing a with
  | nil =>
    refine ⟨[], [], rfl, ?_, by simp⟩
    intro q hq
    rcases List.mem_singleton.mp hq with rfl
    simp
  | cons b t ih =>
    by_cases hb : b.2 < a.2
    · simp only [List.foldl_cons, if_pos hb]
      obtain ⟨l1, l2, hdec, hle, hlt⟩ := ih b
      have hrb : (t.foldl (fun acc b => if b.2 < acc.2 then b else acc) b).2 ≤ b.2 :=
        hle b (List.mem_cons_self _ _)
      refine ⟨a :: l1, l2, ?_, ?_, ?_⟩
      · rw [List.cons_append, ← hdec]
      · intro q hq
        simp only [List.mem_cons] at hq
        rcases hq with rfl | rfl | hq
        · linarith
        · exact hrb
        · exact hle q (List.mem_cons_of_mem _ hq)
      · intro q hq
        simp only [List.mem_cons] at hq
        rcases hq with rfl | hq
        · linarith
        · exact hlt q hq
    · simp only [List.foldl_cons, if_neg hb]
      obtain ⟨l1, l2, hdec, hle, hlt⟩ := ih a
      have hab : a.2 ≤ b.2 := not_lt.mp hb
      cases l1 with
      | nil =>
        simp only [List.nil_append, List.cons.injEq] at hdec
        obtain ⟨ha, ht⟩ := hdec
        refine ⟨[], b :: t, ?_, ?_, by simp⟩
        · simp only [List.nil_append]
          rw [← ha]
        · intro q hq
          simp only [List.mem_cons] at hq
          rcases hq with rfl | rfl | hq
          · exact hle q (List.mem_cons_self _ _)
          · rw [← ha]; exact hab
          · exact hle q (List.mem_cons_of_mem _ hq)
      | cons a1 l1t =>
        simp only [List.cons_append, List.cons.injEq] at hdec
        obtain ⟨ha1, ht⟩ := hdec
        have hlta : (t.foldl (fun acc b => if b.2 < acc.2 then b else acc) a).2 < a.2 := by
          have h1 := hlt a1 (List.mem_cons_self _ _)
          rw [← ha1] at h1
          exact h1
        refine ⟨a :: b :: l1t, l2, ?_, ?_, ?_⟩
        · rw [List.cons_append, List.cons_append, ← ht]
        · intro q hq
          simp only [List.mem_cons] at hq
          rcases hq with rfl | rfl | hq
          · exact hle q (List.mem_cons_self _ _)
          · linarith
          · exact hle q (List.mem_cons_of_mem _ hq)
        · intro q hq
          simp only [List.mem_cons] at hq
          rcases hq with rfl | rfl | hq
          · exact hlta
          · linarith
          · exact hlt q (List.mem_cons_of_mem _ hq)

/-- min_by over a list indexed by 0..n-1: the result is the entry of the
least index attaining the minimal second component. -/
theorem minByFirst_map_range_spec {α : Type} (f : Nat → α × ℚ) (n : Nat) (hn : 0 < n) :
    ∃ k, k < n ∧ minByFirst ((List.range n).map f) = some (f k)
      ∧ (∀ j, j < n → (f k).2 ≤ (f j).2) ∧ (∀ j, j < k → (f k).2 < (f j).2) := by
  cases hc : (List.range n).map f with
  | nil =>
    exfalso
    have hl := congrArg List.length hc
    simp at hl
    omega
  | cons a t =>
    obtain ⟨l1, l2, hdec, hle, hlt⟩ := foldl_minBy_spec a t
    have hldec : (List.range n).map f
        = l1 ++ (t.foldl (fun acc b => if b.2 < acc.2 then b else acc) a) :: l2 := by
      rw [hc, hdec]
    have hlen : n = l1.length + 1 + l2.length := by
      have h1 := congrArg List.length hldec
      simp [List.length_append] at h1
      omega
    have hq1 : ((List.range n).map f).get? l1.length
        = some (t.foldl (fun acc b => if b.2 < acc.2 then b else acc) a) := by
      rw [hldec, List.get?_append_right (le_refl _)]
      simp
    have hq2 : ((List.range n).map f).get? l1.length = some (f l1.length) := by
      rw [List.get?_map, List.get?_range (by omega)]
      rfl
    have hrf : t.foldl (fun acc b => if b.2 < acc.2 then b else acc) a = f l1.length := by
      rw [hq1] at hq2
      exact Option.some.inj hq2
    refine ⟨l1.length, by omega, ?_, ?_, ?_⟩
    · rw [← hrf]
      rfl
    · intro j hj
      have hmem : f j ∈ (List.range n).map f := List.mem_map_of_mem f (List.mem_range.mpr hj)
      rw [hc] at hmem
      rw [← hrf]
      exact hle (f j) hmem
    · intro j hj
      have hg1 : ((List.range n).map f).get? j = some (f j) := by
        rw [List.get?_map, List.get?_range (by omega)]
        rfl
      have hg2 : ((List.range n).map f).get? j = l1.get? j := by
        rw [hldec]
        exact List.get?_append hj
      have hmem : f j ∈ l1 := by
        rw [hg2] at hg1
        exact List.get?_mem hg1
      rw [← hrf]
      exact hlt (f j) hmem

/-- C6: the de entry point runs the island-parallel variant exactly when
threads > 1, dim ≥ PARALLEL_MIN_DIM (50) and max_iter ≥ PARALLEL_MIN_ITER
(200); each island uses subpopulation max(10, POP_SIZE/threads) and the
thread-derived seed inside islandRun; and the join returns the island pair
of lowest fitness, ties resolved to the lowest island index. -/
theorem de_dispatch_and_island_join (m : Model) (max_iter threads : Nat) :
    (de m max_iter threads
      = if 1 < threads ∧ PARALLEL_MIN_DIM ≤ m.dim ∧ PARALLEL_MIN_ITER ≤ max_iter
        then de_parallel m max_iter threads else de_single m max_iter) ∧
    islandSubPop threads = max 10 (POP_SIZE / threads) ∧
    (0 < threads → ∃ k, k < threads ∧
      de_parallel m max_iter threads
        = ((islandRun m max_iter threads k).1, (islandRun m max_iter threads k).2, max_iter) ∧
      (∀ j, j < threads →
        (islandRun m max_iter threads k).2 ≤ (islandRun m max_iter threads j).2) ∧
      (∀ j, j < k →
        (islandRun m max_iter threads k).2 < (islandRun m max_iter threads j).2)) := by
  refine ⟨?_, Nat.max_comm _ _, ?_⟩
  · have hde : de m max_iter threads
        = if threads ≤ 1 ∨ m.dim < PARALLEL_MIN_DIM ∨ max_iter < PARALLEL_MIN_ITER
          then de_single m max_iter else de_parallel m max_iter threads := by
      unfold de solve_cp
      cases m.cp_globals <;> rfl
    rw [hde]
    by_cases h : 1 < threads ∧ PARALLEL_MIN_DIM ≤ m.dim ∧ PARALLEL_MIN_ITER ≤ max_iter
    · obtain ⟨h1, h2, h3⟩ := h
      rw [if_neg (by omega), if_pos ⟨h1, h2, h3⟩]
    · rw [if_pos (by omega), if_neg h]
  · intro hth
    obtain ⟨k, hk, hmin, hle, hlt⟩ :=
      minByFirst_map_range_spec (fun t => islandRun m max_iter threads t) threads hth
    refine ⟨k, hk, ?_, hle, hlt⟩
    unfold de_parallel
    rw [hmin]

/-- Witness for the island-join theorem at two threads. -/
theorem de_dispatch_and_island_join_witness :
    0 < 2 ∧ (∃ k, k < 2 ∧
      de_parallel mW 5 2
        = ((islandRun mW 5 2 k).1, (islandRun mW 5 2 k).2, 5) ∧
      (∀ j, j < 2 → (islandRun mW 5 2 k).2 ≤ (islandRun mW 5 2 j).2) ∧
      (∀ j, j < k → (islandRun mW 5 2 k).2 < (islandRun mW 5 2 j).2)) :=
  ⟨by decide, (de_dispatch_and_island_join mW 5 2).2.2 (by decide)⟩

/-- getD through map at an in-range index. -/
theorem map_getD_fit (F : List ℚ → ℚ) (l : List (List ℚ)) (i : Nat) (h : i < l.length) :
    (l.map F).getD i 0 = F (l.getD i []) := by
  induction l generalizing i with
  | nil => simp at h
  | cons a t ih =>
    cases i with
    | zero => simp
    | succ j =>
      simp only [List.map_cons, List.getD_cons_succ]
      exact ih j (by simpa using h)

/-- The scan index of argminAux is the initial candidate or lies in the
scanned range. -/
theorem argminAux_range (t : List ℚ) : ∀ i bi bv, argminAux t i bi bv = bi
    ∨ (i ≤ argminAux t i bi bv ∧ argminAux t i bi bv < i + t.length) := by
  induction t with
  | nil => intro i bi bv; exact Or.inl rfl
  | cons v t ih =>
    intro i bi bv
    unfold argminAux
    by_cases h : v < bv
    · rw [if_pos h]
      rcases ih (i + 1) i v with h1 | h1
      · right
        rw [h1]
        simp only [List.length_cons]
        omega
      · right
        simp only [List.length_cons]
        omega
    · rw [if_neg h]
      rcases ih (i + 1) bi bv with h1 | h1
      · exact Or.inl h1
      · right
        simp only [List.length_cons]
        omega

/-- find_best returns an in-range index on a nonempty list. -/
theorem argminFirst_lt (v : ℚ) (t : List ℚ) : argminFirst (v :: t) < (v :: t).length := by
  simp only [argminFirst]
  rcases argminAux_range t 1 0 v with h | h
  · rw [h]; simp
  · simp only [List.length_cons]
    omega

/-- The value at the argminAux index is a lower bound of the candidate value
and of the scanned segment. -/
theorem argminAux_min (t : List ℚ) : ∀ (i bi : Nat) (bv : ℚ) (l : List ℚ),
    l.getD bi 0 = bv → (∀ k, k < t.length → l.getD (i + k) 0 = t.getD k 0) →
    l.getD (argminAux t i bi bv) 0 ≤ bv ∧ ∀ w ∈ t, l.getD (argminAux t i bi bv) 0 ≤ w := by
  induction t with
  | nil =>
    intro i bi bv l hlink _
    exact ⟨le_of_eq hlink, by simp⟩
  | cons v t ih =>
    intro i bi bv l hlink hsuf
    have hv : l.getD i 0 = v := by simpa using hsuf 0 (by simp)
    have hsuf1 : ∀ k, k < t.length → l.getD (i + 1 + k) 0 = t.getD k 0 := by
      intro k hk
      have := hsuf (k + 1) (by simp only [List.length_cons]; omega)
      simpa [Nat.add_right_comm i 1 k, Nat.add_comm 1 k, ← Nat.add_assoc] using this
    unfold argminAux
    by_cases h : v < bv
    · rw [if_pos h]
      obtain ⟨h1, h2⟩ := ih (i + 1) i v l hv hsuf1
      refine ⟨le_trans h1 (le_of_lt h), ?_⟩
      intro w hw
      rcases List.mem_cons.mp hw with rfl | hw
      · exact h1
      · exact h2 w hw
    · rw [if_neg h]
      obtain ⟨h1, h2⟩ := ih (i + 1) bi bv l hlink hsuf1
      refine ⟨h1, ?_⟩
      intro w hw
      rcases List.mem_cons.mp hw with rfl | hw
      · exact h1.trans (not_lt.mp h)
      · exact h2 w hw

/-- The value at the find_best index is minimal in the list. -/
theorem argminFirst_min (l : List ℚ) : ∀ w ∈ l, l.getD (argminFirst l) 0 ≤ w := by
  cases l with
  | nil => simp
  | cons v t =>
    have hm := argminAux_min t 1 0 v (v :: t) (by simp)
      (fun k hk => by simp [Nat.add_comm 1 k])
    intro w hw
    simp only [argminFirst]
    rcases List.mem_cons.mp hw with rfl | hw
    · exact hm.1
    · exact hm.2 w hw

/-- Invariance of a predicate under a left fold over a list of indices. -/
theorem foldl_preserve {β : Type} (P : β → Prop) (f : β → Nat → β) (l : List Nat)
    (hstep : ∀ b i, i ∈ l → P b → P (f b i)) (b : β) (hb : P b) : P (l.foldl f b) := by
  induction l generalizing b with
  | nil => exact hb
  | cons i t ih =>
    exact ih (fun b' j hj hp => hstep b' j (List.mem_cons_of_mem _ hj) hp) _
      (hstep b i (List.mem_cons_self _ _) hb)

/-- getD after set at the written index. -/
theorem getD_set_eq {α : Type} (l : List α) (i : Nat) (a d : α) (h : i < l.length) :
    (l.set i a).getD i d = a := by
  induction l generalizing i with
  | nil => simp at h
  | cons b t ih =>
    cases i with
    | zero => simp
    | succ j =>
      simp only [List.set_cons_succ, List.getD_cons_succ]
      exact ih j (by simpa using h)

/-- getD after set at another index. -/
theorem getD_set_ne {α : Type} (l : List α) (i j : Nat) (a d : α) (h : i ≠ j) :
    (l.set i a).getD j d = l.getD j d := by
  induction l generalizing i j with
  | nil => simp
  | cons b t ih =>
    cases i with
    | zero =>
      cases j with
      | zero => exact absurd rfl h
      | succ j2 => simp
    | succ i2 =>
      cases j with
      | zero => simp
      | succ j2 =>
        simp only [List.set_cons_succ, List.getD_cons_succ]
        exact ih i2 j2 (fun he => h (by rw [he]))

/-- initRows produces exactly n rows. -/
theorem initRows_length (lb ub : List ℚ) (dim : Nat) :
    ∀ n (rng : Rng), ((initRows rng lb ub dim n).1).length = n := by
  intro n
  induction n with
  | zero => intro rng; rfl
  | succ k ih =>
    intro rng
    simp only [initRows]
    exact congrArg Nat.succ (ih _)

/-- The DE invariant bundle holds for a freshly initialised state over any
row list of the right length. -/
theorem deInv_init_general (F : List ℚ → ℚ) (size : Nat) (hsz : 0 < size)
    (rows : List (List ℚ)) (hlen : rows.length = size) (rng : Rng) :
    deInv F size
      { rows := rows,
        fit := rows.map F,
        best := rows.getD (argminFirst (rows.map F)) [],
        bestFit := F (rows.getD (argminFirst (rows.map F)) []),
        rng := rng,
        obs := rows.map F,
        done := none } := by
  have hk : argminFirst (rows.map F) < rows.length := by
    cases hr : rows with
    | nil => rw [hr] at hlen; simp at hlen; omega
    | cons a t =>
      have := argminFirst_lt (F a) (t.map F)
      simpa using this
  have hbf : F (rows.getD (argminFirst (rows.map F)) [])
      = (rows.map F).getD (argminFirst (rows.map F)) 0 :=
    (map_getD_fit F rows _ hk).symm
  refine ⟨hlen, by simpa using hlen, ?_, ?_, ?_, ?_⟩
  · intro i hi
    exact map_getD_fit F rows i (by omega)
  · simp only [deInv]
    rw [hbf]
    have hgm : (rows.map F).getD (argminFirst (rows.map F)) 0
        ∈ rows.map F := by
      have hk2 : argminFirst (rows.map F) < (rows.map F).length := by simpa using hk
      rw [List.getD_eq_getElem _ _ hk2]
      exact List.getElem_mem hk2
    exact hgm
  · intro v hv
    rw [hbf]
    exact argminFirst_min (rows.map F) v hv
  · intro i hi
    rw [hbf]
    have hfm : (rows.map F).getD i 0 ∈ rows.map F := by
      have hi2 : i < (rows.map F).length := by simp; omega
      rw [List.getD_eq_getElem _ _ hi2]
      exact List.getElem_mem hi2
    exact argminFirst_min (rows.map F) _ hfm

/-- deInit establishes the invariant bundle. -/
theorem deInit_inv (F : List ℚ → ℚ) (lb ub : List ℚ) (dim size seed : Nat) (hsz : 0 < size) :
    deInv F size (deInit F lb ub dim size seed) := by
  have he : deInit F lb ub dim size seed
      = { rows := (initRows (Rng.mk0 seed) lb ub dim size).1,
          fit := (initRows (Rng.mk0 seed) lb ub dim size).1.map F,
          best :=
            (initRows (Rng.mk0 seed) lb ub dim size).1.getD
              (argminFirst ((initRows (Rng.mk0 seed) lb ub dim size).1.map F)) [],
          bestFit :=
            F ((initRows (Rng.mk0 seed) lb ub dim size).1.getD
              (argminFirst ((initRows (Rng.mk0 seed) lb ub dim size).1.map F)) []),
          rng := (initRows (Rng.mk0 seed) lb ub dim size).2,
          obs := (initRows (Rng.mk0 seed) lb ub dim size).1.map F,
          done := none } := rfl
  rw [he]
  exact deInv_init_general F size hsz _ (initRows_length lb ub dim size _) _

/-- One DE inner step preserves the invariant bundle. -/
theorem deInner_inv (F : List ℚ → ℚ) (lb ub : List ℚ) (dim size iter : Nat) (st : DEState)
    (i : Nat) (hi : i < size) (h : deInv F size st) :
    deInv F size (deInner F lb ub dim size iter st i) := by
  obtain ⟨rows, fit, best, bestFit, rng, obs, done⟩ := st
  obtain ⟨hrl, hfl, hpt, hmem, hlb, hbf⟩ := h
  dsimp only at hrl hfl hpt hmem hlb hbf
  cases done with
  | some k => exact ⟨hrl, hfl, hpt, hmem, hlb, hbf⟩
  | none =>
    simp only [deInner]
    set trial := de_crossover rows i
      ((select_parents size rng i).1.1) ((select_parents size rng i).1.2)
      ((((select_parents size rng i).2).usizeR dim).1) best
      ((((((select_parents size rng i).2).usizeR dim).2).fillF64 dim).1) lb ub dim with htr
    by_cases hacc : F trial ≤ fit.getD i 0
    · rw [if_pos hacc]
      by_cases hbet : F trial < bestFit
      · rw [if_pos hbet]
        refine ⟨by simpa using hrl, by simpa using hfl, ?_, ?_, ?_, ?_⟩
        · intro j hj
          by_cases hij : i = j
          · subst hij
            rw [getD_set_eq fit i _ 0 (by omega), getD_set_eq rows i _ [] (by omega)]
          · rw [getD_set_ne fit i j _ 0 hij, getD_set_ne rows i j _ [] hij]
            exact hpt j hj
        · exact List.mem_append_right _ (List.mem_singleton.mpr rfl)
        · intro v hv
          rcases List.mem_append.mp hv with hv | hv
          · exact le_of_lt (lt_of_lt_of_le hbet (hlb v hv))
          · rw [List.mem_singleton.mp hv]
        · intro j hj
          by_cases hij : i = j
          · subst hij
            rw [getD_set_eq fit i _ 0 (by omega)]
          · rw [getD_set_ne fit i j _ 0 hij]
            exact le_of_lt (lt_of_lt_of_le hbet (hbf j hj))
      · rw [if_neg hbet]
        refine ⟨by simpa using hrl, by simpa using hfl, ?_, ?_, ?_, ?_⟩
        · intro j hj
          by_cases hij : i = j
          · subst hij
            rw [getD_set_eq fit i _ 0 (by omega), getD_set_eq rows i _ [] (by omega)]
          · rw [getD_set_ne fit i j _ 0 hij, getD_set_ne rows i j _ [] hij]
            exact hpt j hj
        · exact List.mem_append_left _ hmem
        · intro v hv
          rcases List.mem_append.mp hv with hv | hv
          · exact hlb v hv
          · rw [List.mem_singleton.mp hv]
            exact not_lt.mp hbet
        · intro j hj
          by_cases hij : i = j
          · subst hij
            rw [getD_set_eq fit i _ 0 (by omega)]
            exact not_lt.mp hbet
          · rw [getD_set_ne fit i j _ 0 hij]
            exact hbf j hj
    · rw [if_neg hacc]
      refine ⟨hrl, hfl, hpt, List.mem_append_left _ hmem, ?_, hbf⟩
      intro v hv
      rcases List.mem_append.mp hv with hv | hv
      · exact hlb v hv
      · rw [List.mem_singleton.mp hv]
        exact le_trans (hbf i hi) (le_of_lt (not_le.mp hacc))

/-- One DE inner step never increases the incumbent fitness. -/
theorem deInner_bestFit_le (F : List ℚ → ℚ) (lb ub : List ℚ) (dim size iter : Nat)
    (st : DEState) (i : Nat) :
    (deInner F lb ub dim size iter st i).bestFit ≤ st.bestFit := by
  obtain ⟨rows, fit, best, bestFit, rng, obs, done⟩ := st
  cases done with
  | some k => exact le_refl _
  | none =>
    simp only [deInner]
    set trial := de_crossover rows i
      ((select_parents size rng i).1.1) ((select_parents size rng i).1.2)
      ((((select_parents size rng i).2).usizeR dim).1) best
      ((((((select_parents size rng i).2).usizeR dim).2).fillF64 dim).1) lb ub dim with htr
    by_cases hacc : F trial ≤ fit.getD i 0
    · rw [if_pos hacc]
      by_cases hbet : F trial < bestFit
      · rw [if_pos hbet]
        exact le_of_lt hbet
      · rw [if_neg hbet]
    · rw [if_neg hacc]

/-- One DE generation preserves the invariant bundle. -/
theorem deGen_inv (F : List ℚ → ℚ) (lb ub : List ℚ) (dim size iter : Nat) (st : DEState)
    (h : deInv F size st) : deInv F size (deGen F lb ub dim size iter st) := by
  unfold deGen
  exact foldl_preserve (deInv F size) _ (List.range size)
    (fun b i hi hp => deInner_inv F lb ub dim size iter b i (List.mem_range.mp hi) hp) st h

/-- One DE generation never increases the incumbent fitness. -/
theorem deGen_bestFit_le (F : List ℚ → ℚ) (lb ub : List ℚ) (dim size iter : Nat)
    (st : DEState) : (deGen F lb ub dim size iter st).bestFit ≤ st.bestFit := by
  unfold deGen
  exact foldl_preserve (fun b => b.bestFit ≤ st.bestFit) _ (List.range size)
    (fun b i _ hp => le_trans (deInner_bestFit_le F lb ub dim size iter b i) hp) st (le_refl _)

/-- The DE state after any number of generations satisfies the invariant. -/
theorem deRun_inv (F : List ℚ → ℚ) (lb ub : List ℚ) (dim size seed gens : Nat)
    (hsz : 0 < size) : deInv F size (deRun F lb ub dim size seed gens) := by
  unfold deRun
  exact foldl_preserve (deInv F size) _ (List.range gens)
    (fun b it _ hp => deGen_inv F lb ub dim size it b hp) _
    (deInit_inv F lb ub dim size seed hsz)

/-- Unrolling one generation of the DE run. -/
theorem deRun_succ (F : List ℚ → ℚ) (lb ub : List ℚ) (dim size seed g : Nat) :
    deRun F lb ub dim size seed (g + 1)
      = deGen F lb ub dim size g (deRun F lb ub dim size seed g) := by
  unfold deRun
  rw [List.range_succ, List.foldl_append, List.foldl_cons, List.foldl_nil]

/-- C5: after every generation of serial DE, the stored fitness of each of
the POP_SIZE individuals equals compute_fitness of its row; the incumbent
fitness is the minimum of every fitness value observed so far (it is an
observed value and a lower bound of all of them); and the incumbent fitness
never increases from one generation to the next. -/
theorem de_single_loop_invariants (m : Model) (g : Nat) :
    (∀ i, i < POP_SIZE →
      (deIterate m g).fit.getD i 0 = compute_fitness m ((deIterate m g).rows.getD i [])) ∧
    (deIterate m g).bestFit ∈ (deIterate m g).obs ∧
    (∀ v ∈ (deIterate m g).obs, (deIterate m g).bestFit ≤ v) ∧
    (deIterate m (g + 1)).bestFit ≤ (deIterate m g).bestFit := by
  have hinv : deInv (fun v => compute_fitness m v) POP_SIZE (deIterate m g) := by
    unfold deIterate
    exact deRun_inv _ m.lb m.ub m.dim POP_SIZE 12345 g (by norm_num [POP_SIZE])
  obtain ⟨_, _, hpt, hmem, hlbd, _⟩ := hinv
  refine ⟨hpt, hmem, hlbd, ?_⟩
  have hsucc : deIterate m (g + 1)
      = deGen (fun v => compute_fitness m v) m.lb m.ub m.dim POP_SIZE g (deIterate m g) := by
    unfold deIterate
    exact deRun_succ _ m.lb m.ub m.dim POP_SIZE 12345 g
  rw [hsucc]
  exact deGen_bestFit_le _ m.lb m.ub m.dim POP_SIZE g (deIterate m g)

/-- The raw 64-bit draw is below the modulus. -/
theorem Rng_next_lt (r : Rng) : (r.next).1 < M64 := by
  unfold Rng.next M64
  exact Nat.mod_lt _ (by norm_num)

/-- Uniform draws lie in [0, 1). -/
theorem Rng_f64_bounds (r : Rng) : 0 ≤ (r.f64).1 ∧ (r.f64).1 < 1 := by
  have hval : (r.f64).1 = (((r.next).1 / 2 ^ 11 : Nat) : ℚ) / (2 ^ 53 : ℚ) := rfl
  rw [hval]
  constructor
  · positivity
  · rw [div_lt_one (by positivity)]
    have h1 : (r.next).1 < M64 := Rng_next_lt r
    have h2 : (r.next).1 / 2 ^ 11 < 2 ^ 53 := by
      unfold M64 at h1
      omega
    exact_mod_cast h2

/-- Every element of a bulk fill lies in [0, 1). -/
theorem fillF64_bounds (n : Nat) : ∀ (r : Rng), ∀ v ∈ (r.fillF64 n).1, 0 ≤ v ∧ v < 1 := by
  induction n with
  | zero =>
    intro r v hv
    simp [Rng.fillF64] at hv
  | succ k ih =>
    intro r v hv
    have hfs : (r.fillF64 (k + 1)).1 = (r.f64).1 :: (((r.f64).2).fillF64 k).1 := rfl
    rw [hfs] at hv
    rcases List.mem_cons.mp hv with rfl | hv
    · exact Rng_f64_bounds r
    · exact ih _ v hv

/-- A bulk fill has the requested length. -/
theorem fillF64_length (n : Nat) : ∀ (r : Rng), ((r.fillF64 n).1).length = n := by
  induction n with
  | zero => intro r; rfl
  | succ k ih => intro r; exact congrArg Nat.succ (ih _)

/-- The clamp stays within an ordered pair of bounds. -/
theorem rustClamp_mem (v lo hi : ℚ) (h : lo ≤ hi) :
    lo ≤ rustClamp v lo hi ∧ rustClamp v lo hi ≤ hi := by
  unfold rustClamp
  by_cases h1 : v < lo
  · rw [if_pos h1]
    exact ⟨le_refl _, h⟩
  · rw [if_neg h1]
    by_cases h2 : v > hi
    · rw [if_pos h2]
      exact ⟨h, le_refl _⟩
    · rw [if_neg h2]
      exact ⟨not_lt.mp h1, not_lt.mp h2⟩

/-- getD over a map of the index range. -/
theorem getD_map_range (f : Nat → ℚ) (dim j : Nat) (h : j < dim) :
    ((List.range dim).map f).getD j 0 = f j := by
  have h2 : j < ((List.range dim).map f).length := by simpa using h
  rw [List.getD_eq_getElem _ _ h2]
  simp

/-- Sampled rows are inside the box when the bounds are ordered. -/
theorem initRows_inBounds (m : Model) (hle : ∀ j < m.dim, m.lb.getD j 0 ≤ m.ub.getD j 0) :
    ∀ n (rng : Rng), ∀ row ∈ (initRows rng m.lb m.ub m.dim n).1, inBounds m row := by
  intro n
  induction n with
  | zero =>
    intro rng row hrow
    simp [initRows] at hrow
  | succ k ih =>
    intro rng row hrow
    have hfs : (initRows rng m.lb m.ub m.dim (k + 1)).1
        = ((List.range m.dim).map (fun j =>
            m.lb.getD j 0 + ((rng.fillF64 m.dim).1).getD j 0 * (m.ub.getD j 0 - m.lb.getD j 0)))
          :: (initRows ((rng.fillF64 m.dim).2) m.lb m.ub m.dim k).1 := rfl
    rw [hfs] at hrow
    rcases List.mem_cons.mp hrow with rfl | hrow
    · constructor
      · simp
      · intro j hj
        rw [getD_map_range _ m.dim j hj]
        have hd : 0 ≤ m.ub.getD j 0 - m.lb.getD j 0 := by linarith [hle j hj]
        have hr : 0 ≤ ((rng.fillF64 m.dim).1).getD j 0
            ∧ ((rng.fillF64 m.dim).1).getD j 0 < 1 := by
          have hlen : ((rng.fillF64 m.dim).1).length = m.dim := fillF64_length m.dim rng
          have hmem : ((rng.fillF64 m.dim).1).getD j 0 ∈ (rng.fillF64 m.dim).1 := by
            have hj2 : j < ((rng.fillF64 m.dim).1).length := by omega
            rw [List.getD_eq_getElem _ _ hj2]
            exact List.getElem_mem hj2
          exact fillF64_bounds m.dim rng _ hmem
        constructor
        · have := mul_nonneg hr.1 hd
          linarith
        · have := mul_le_of_le_one_left hd (le_of_lt hr.2)
          linarith
    · exact ih _ row hrow

/-- A getD row of a list of in-box rows is in the box (in-range index). -/
theorem getD_row_inBounds (m : Model) (rows : List (List ℚ)) (i : Nat)
    (hi : i < rows.length) (hrows : ∀ row ∈ rows, inBounds m row) :
    inBounds m (rows.getD i []) := by
  have hmem : rows.getD i [] ∈ rows := by
    rw [List.getD_eq_getElem _ _ hi]
    exact List.getElem_mem hi
  exact hrows _ hmem

/-- Crossover trials stay in the box: mutants are clamped and the remaining
components are copied from an in-box parent. -/
theorem de_crossover_inBounds (m : Model) (hle : ∀ j < m.dim, m.lb.getD j 0 ≤ m.ub.getD j 0)
    (rows : List (List ℚ)) (hrows : ∀ row ∈ rows, inBounds m row) (i : Nat)
    (hi : i < rows.length) (r1 r2 jr : Nat) (best rnd : List ℚ) :
    inBounds m (de_crossover rows i r1 r2 jr best rnd m.lb m.ub m.dim) := by
  constructor
  · simp [de_crossover]
  · intro j hj
    unfold de_crossover
    rw [getD_map_range _ m.dim j hj]
    have hclamp := rustClamp_mem
      (best.getD j 0 + DE_F * ((rows.getD r1 []).getD j 0 - (rows.getD r2 []).getD j 0))
      (m.lb.getD j 0) (m.ub.getD j 0) (hle j hj)
    by_cases h1 : j = jr
    · rw [if_pos h1]
      exact hclamp
    · rw [if_neg h1]
      by_cases h2 : rnd.getD j 0 < DE_CR
      · rw [if_pos h2]
        exact hclamp
      · rw [if_neg h2]
        exact (getD_row_inBounds m rows i hi hrows).2 j hj

/-- DE initialisation establishes the bounds invariant. -/
theorem deInit_bnd (m : Model) (hle : ∀ j < m.dim, m.lb.getD j 0 ≤ m.ub.getD j 0)
    (F : List ℚ → ℚ) (size seed : Nat) (hsz : 0 < size) :
    deBnd m size (deInit F m.lb m.ub m.dim size seed) := by
  have hlen := initRows_length m.lb m.ub m.dim size (Rng.mk0 seed)
  have hrows := initRows_inBounds m hle size (Rng.mk0 seed)
  refine ⟨hlen, hrows, ?_⟩
  have hk : argminFirst (((initRows (Rng.mk0 seed) m.lb m.ub m.dim size).1).map F)
      < ((initRows (Rng.mk0 seed) m.lb m.ub m.dim size).1).length := by
    cases hr : (initRows (Rng.mk0 seed) m.lb m.ub m.dim size).1 with
    | nil => rw [hr] at hlen; simp at hlen; omega
    | cons a t =>
      have := argminFirst_lt (F a) (t.map F)
      simpa using this
  exact getD_row_inBounds m _ _ hk hrows

/-- One DE inner step preserves the bounds invariant. -/
theorem deInner_bnd (m : Model) (hle : ∀ j < m.dim, m.lb.getD j 0 ≤ m.ub.getD j 0)
    (F : List ℚ → ℚ) (size iter : Nat) (st : DEState) (i : Nat) (hi : i < size)
    (h : deBnd m size st) : deBnd m size (deInner F m.lb m.ub m.dim size iter st i) := by
  obtain ⟨rows, fit, best, bestFit, rng, obs, done⟩ := st
  obtain ⟨hrl, hrows, hbest⟩ := h
  dsimp only at hrl hrows hbest
  cases done with
  | some k => exact ⟨hrl, hrows, hbest⟩
  | none =>
    simp only [deInner]
    set trial := de_crossover rows i
      ((select_parents size rng i).1.1) ((select_parents size rng i).1.2)
      ((((select_parents size rng i).2).usizeR m.dim).1) best
      ((((((select_parents size rng i).2).usizeR m.dim).2).fillF64 m.dim).1) m.lb m.ub m.dim
      with htr
    have htrb : inBounds m trial := by
      rw [htr]
      exact de_crossover_inBounds m hle rows hrows i (by omega) _ _ _ _ _
    have hsetlen : (rows.set i trial).length = size := by simpa using hrl
    have hsetrows : ∀ row ∈ rows.set i trial, inBounds m row := by
      intro row hrow
      rcases List.mem_or_eq_of_mem_set hrow with hrow | hrow
      · exact hrows row hrow
      · rw [hrow]; exact htrb
    by_cases hacc : F trial ≤ fit.getD i 0
    · rw [if_pos hacc]
      by_cases hbet : F trial < bestFit
      · rw [if_pos hbet]
        exact ⟨hsetlen, hsetrows, htrb⟩
      · rw [if_neg hbet]
        exact ⟨hsetlen, hsetrows, hbest⟩
    · rw [if_neg hacc]
      exact ⟨hrl, hrows, hbest⟩

/-- Every reachable serial-DE state satisfies the bounds invariant. -/
theorem deRun_bnd (m : Model) (hle : ∀ j < m.dim, m.lb.getD j 0 ≤ m.ub.getD j 0)
    (F : List ℚ → ℚ) (size seed gens : Nat) (hsz : 0 < size) :
    deBnd m size (deRun F m.lb m.ub m.dim size seed gens) := by
  unfold deRun
  refine foldl_preserve (deBnd m size) _ (List.range gens) ?_ _
    (deInit_bnd m hle F size seed hsz)
  intro b it _ hp
  unfold deGen
  exact foldl_preserve (deBnd m size) _ (List.range size)
    (fun b2 i hi hp2 => deInner_bnd m hle F size it b2 i (List.mem_range.mp hi) hp2) b hp

/-- The index kept by the global-best scan is in range. -/
theorem gbestFold_lt (F : List ℚ → ℚ) (rows : List (List ℚ)) (n : Nat) (hn : 0 < n) :
    (gbestFold F rows n).1 < n := by
  unfold gbestFold
  refine foldl_preserve (fun acc : Nat × ℚ => acc.1 < n) _ (List.range n) ?_ _ hn
  intro acc i hi hacc
  dsimp only
  by_cases h : F (rows.getD i []) < acc.2
  · rw [if_pos h]
    exact List.mem_range.mp hi
  · rw [if_neg h]
    exact hacc

/-- PSO initialisation establishes the bounds invariant. -/
theorem psoInit_bnd (m : Model) (hle : ∀ j < m.dim, m.lb.getD j 0 ≤ m.ub.getD j 0)
    (F : List ℚ → ℚ) : psoBnd m (psoInit F m.lb m.ub m.dim) := by
  have hlen := initRows_length m.lb m.ub m.dim N_PARTICLES (Rng.mk0 67890)
  have hrows := initRows_inBounds m hle N_PARTICLES (Rng.mk0 67890)
  refine ⟨hlen, hlen, hrows, hrows, ?_⟩
  have hk : (gbestFold F ((initRows (Rng.mk0 67890) m.lb m.ub m.dim N_PARTICLES).1)
      N_PARTICLES).1 < ((initRows (Rng.mk0 67890) m.lb m.ub m.dim N_PARTICLES).1).length := by
    rw [hlen]
    exact gbestFold_lt F _ N_PARTICLES (by norm_num [N_PARTICLES])
  exact getD_row_inBounds m _ _ hk hrows


/-- The clipped per-dimension position stays within ordered bounds. -/
theorem psoStep1_fst_mem (m : Model) (hle : ∀ j < m.dim, m.lb.getD j 0 ≤ m.ub.getD j 0)
    (row vrow pbrow gbest vmax : List ℚ) (w : ℚ) (r1 r2 : List ℚ) (j : Nat) (hj : j < m.dim) :
    m.lb.getD j 0 ≤ (psoStep1 row vrow pbrow gbest vmax m.lb m.ub w r1 r2 j).1
      ∧ (psoStep1 row vrow pbrow gbest vmax m.lb m.ub w r1 r2 j).1 ≤ m.ub.getD j 0 := by
  unfold psoStep1
  set v1 := rustClamp
    (w * vrow.getD j 0 + PSO_C1 * r1.getD j 0 * (pbrow.getD j 0 - row.getD j 0)
      + PSO_C2 * r2.getD j 0 * (gbest.getD j 0 - row.getD j 0))
    (-(vmax.getD j 0)) (vmax.getD j 0) with hv1
  dsimp only
  by_cases h1 : row.getD j 0 + v1 < m.lb.getD j 0
  · rw [if_pos h1]
    dsimp only
    rw [if_neg (not_lt.mpr (hle j hj))]
    exact ⟨le_refl _, hle j hj⟩
  · rw [if_neg h1]
    dsimp only
    by_cases h2 : row.getD j 0 + v1 > m.ub.getD j 0
    · rw [if_pos h2]
      exact ⟨hle j hj, le_refl _⟩
    · rw [if_neg h2]
      exact ⟨not_lt.mp h1, not_lt.mp h2⟩

/-- The updated particle position lies in the box. -/
theorem pso_update_inBounds (m : Model) (hle : ∀ j < m.dim, m.lb.getD j 0 ≤ m.ub.getD j 0)
    (row vrow pbrow gbest vmax : List ℚ) (w : ℚ) (r1 r2 : List ℚ) :
    inBounds m (pso_update row vrow pbrow gbest vmax m.lb m.ub w r1 r2 m.dim).1 := by
  constructor
  · simp [pso_update]
  · intro j hj
    unfold pso_update
    dsimp only
    rw [List.map_map]
    rw [getD_map_range (Prod.fst ∘ psoStep1 row vrow pbrow gbest vmax m.lb m.ub w r1 r2)
      m.dim j hj]
    exact psoStep1_fst_mem m hle row vrow pbrow gbest vmax w r1 r2 j hj

/-- One PSO inner step preserves the bounds invariant. -/
theorem psoInner_bnd (m : Model) (hle : ∀ j < m.dim, m.lb.getD j 0 ≤ m.ub.getD j 0)
    (F : List ℚ → ℚ) (vmax : List ℚ) (iter : Nat) (st : PSOState) (i : Nat)
    (h : psoBnd m st) : psoBnd m (psoInner F m.lb m.ub vmax m.dim iter st i) := by
  obtain ⟨pos, vel, pbest, pbestFit, gbest, gbestFit, w, rng, done⟩ := st
  obtain ⟨hpl, hbl, hposb, hpbb, hgb⟩ := h
  dsimp only at hpl hbl hposb hpbb hgb
  cases done with
  | some k => exact ⟨hpl, hbl, hposb, hpbb, hgb⟩
  | none =>
    simp only [psoInner]
    set newPos := (pso_update (pos.getD i []) (vel.getD i []) (pbest.getD i []) gbest vmax
      m.lb m.ub w ((rng.fillF64 m.dim).1) ((((rng.fillF64 m.dim).2).fillF64 m.dim).1) m.dim).1
      with hnp
    have hnpb : inBounds m newPos := by
      rw [hnp]
      exact pso_update_inBounds m hle _ _ _ _ _ _ _ _
    have hposlen : (pos.set i newPos).length = N_PARTICLES := by simpa using hpl
    have hposset : ∀ row ∈ pos.set i newPos, inBounds m row := by
      intro row hrow
      rcases List.mem_or_eq_of_mem_set hrow with hrow | hrow
      · exact hposb row hrow
      · rw [hrow]; exact hnpb
    have hpblen : (pbest.set i newPos).length = N_PARTICLES := by simpa using hbl
    have hpbset : ∀ row ∈ pbest.set i newPos, inBounds m row := by
      intro row hrow
      rcases List.mem_or_eq_of_mem_set hrow with hrow | hrow
      · exact hpbb row hrow
      · rw [hrow]; exact hnpb
    by_cases hacc : F newPos < pbestFit.getD i 0
    · rw [if_pos hacc]
      by_cases hbet : F newPos < gbestFit
      · rw [if_pos hbet]
        exact ⟨hposlen, hpblen, hposset, hpbset, hnpb⟩
      · rw [if_neg hbet]
        exact ⟨hposlen, hpblen, hposset, hpbset, hgb⟩
    · rw [if_neg hacc]
      exact ⟨hposlen, hbl, hposset, hpbb, hgb⟩

/-- One PSO generation (including the inertia decay) preserves the bounds
invariant. -/
theorem psoGen_bnd (m : Model) (hle : ∀ j < m.dim, m.lb.getD j 0 ≤ m.ub.getD j 0)
    (F : List ℚ → ℚ) (vmax : List ℚ) (iter : Nat) (st : PSOState)
    (h : psoBnd m st) : psoBnd m (psoGen F m.lb m.ub vmax m.dim iter st) := by
  unfold psoGen
  have h1 : psoBnd m ((List.range N_PARTICLES).foldl
      (fun s i => psoInner F m.lb m.ub vmax m.dim iter s i) st) :=
    foldl_preserve (psoBnd m) _ (List.range N_PARTICLES)
      (fun b i _ hp => psoInner_bnd m hle F vmax iter b i hp) st h
  set st1 := (List.range N_PARTICLES).foldl
    (fun s i => psoInner F m.lb m.ub vmax m.dim iter s i) st with hst1
  obtain ⟨pos, vel, pbest, pbestFit, gbest, gbestFit, w, rng, done⟩ := st1
  obtain ⟨hpl, hbl, hposb, hpbb, hgb⟩ := h1
  cases done with
  | some k => exact ⟨hpl, hbl, hposb, hpbb, hgb⟩
  | none => exact ⟨hpl, hbl, hposb, hpbb, hgb⟩

/-- Every reachable PSO state satisfies the bounds invariant. -/
theorem psoIterate_bnd (m : Model) (hle : ∀ j < m.dim, m.lb.getD j 0 ≤ m.ub.getD j 0)
    (g : Nat) : psoBnd m (psoIterate m g) := by
  unfold psoIterate
  exact foldl_preserve (psoBnd m) _ (List.range g)
    (fun b it _ hp => psoGen_bnd m hle _ _ it b hp) _
    (psoInit_bnd m hle _)

/-- C9: with ordered bounds, every candidate stored in the DE population and
in the PSO swarm (positions and personal bests) lies in the box at every
reachable state, and so do the assignments returned by de_single and pso. -/
theorem solver_bounds_invariant (m : Model)
    (hle : ∀ j < m.dim, m.lb.getD j 0 ≤ m.ub.getD j 0) (it g : Nat) :
    (∀ row ∈ (deIterate m g).rows, inBounds m row) ∧
    inBounds m (de_single m it).1 ∧
    (∀ row ∈ (psoIterate m g).pos, inBounds m row) ∧
    (∀ row ∈ (psoIterate m g).pbest, inBounds m row) ∧
    inBounds m (pso m it).1 := by
  have hde : deBnd m POP_SIZE (deIterate m g) := by
    unfold deIterate
    exact deRun_bnd m hle _ POP_SIZE 12345 g (by norm_num [POP_SIZE])
  have hdei : deBnd m POP_SIZE (deIterate m it) := by
    unfold deIterate
    exact deRun_bnd m hle _ POP_SIZE 12345 it (by norm_num [POP_SIZE])
  have hpso := psoIterate_bnd m hle g
  have hpsoi := psoIterate_bnd m hle it
  have hdr : de_single m it = ((deIterate m it).best, (deIterate m it).bestFit,
      (deIterate m it).done.getD it) := rfl
  have hpr : pso m it = ((psoIterate m it).gbest, (psoIterate m it).gbestFit,
      (psoIterate m it).done.getD it) := by
    unfold pso solve_cp
    cases m.cp_globals <;> rfl
  refine ⟨hde.2.1, ?_, hpso.2.2.1, hpso.2.2.2.1, ?_⟩
  · rw [hdr]
    exact hdei.2.2
  · rw [hpr]
    exact hpsoi.2.2.2.2

/-- Witness for the bounds-invariant theorem at the unit-box model. -/
theorem solver_bounds_invariant_witness :
    (∀ j < mW.dim, mW.lb.getD j 0 ≤ mW.ub.getD j 0) ∧
    ((∀ row ∈ (deIterate mW 0).rows, inBounds mW row) ∧
     inBounds mW (de_single mW 0).1 ∧
     (∀ row ∈ (psoIterate mW 0).pos, inBounds mW row) ∧
     (∀ row ∈ (psoIterate mW 0).pbest, inBounds mW row) ∧
     inBounds mW (pso mW 0).1) :=
  ⟨by decide, solver_bounds_invariant mW (by decide) 0 0⟩
